import Mathlib

/-
Shallow embedding of the queueing-network simulator (gerador.py,
rede_filas.py) and verification of its specified properties.

Times and probabilities are modelled as rationals; Python ints as
integers; the heapq event queue as a list with explicit extraction of
the minimum in (time, seq) order; fallible Python operations (replay
exhaustion, list IndexError, dict KeyError, int(float('inf'))
OverflowError) as an error monad; the possibly nonterminating event
loop with explicit fuel.
-/

set_option maxHeartbeats 1000000

attribute [local semireducible] Rat.add Rat.mul Rat.sub Rat.inv

deriving instance DecidableEq for Except

namespace RedeFilas

/-- Errors the Python program can raise: overflowError models the
OverflowError raised by int(float('inf')) when a queue omits its
capacity; exhausted models the RuntimeError from SimulationRNG.u when
the replay list runs out; indexError and keyError model failing
list/dict lookups. -/
inductive SimError where
  | overflowError
  | exhausted
  | indexError
  | keyError
deriving DecidableEq, Repr

/-- gerador.py: the LinearCongruentialGenerator fields. -/
structure LinearCongruentialGenerator where
  state : ℤ
  a : ℤ
  c : ℤ
  m : ℤ
deriving DecidableEq, Repr

/-- gerador.py constructor with its default parameters
a=1664525, c=1013904223, m=2^32. -/
def lcgInit (seed : ℤ) : LinearCongruentialGenerator :=
  { state := seed, a := 1664525, c := 1013904223, m := 2 ^ 32 }

/-- gerador.py, next_random: state = (a*state + c) % m, returns
state / m (a value in [0,1) for the default parameters). -/
def LinearCongruentialGenerator.next_random (g : LinearCongruentialGenerator) :
    ℚ × LinearCongruentialGenerator :=
  let s := (g.a * g.state + g.c) % g.m
  ((s : ℚ) / (g.m : ℚ), { g with state := s })

/-- The two variants behind SimulationRNG: a finite replay list
(config key rndnumbers) or the seeded LCG. -/
inductive RNGSource where
  | list (remaining : List ℚ)
  | lcg (gen : LinearCongruentialGenerator)
deriving DecidableEq, Repr

/-- rede_filas.py, class SimulationRNG: the deviate source plus the
used counter. -/
structure SimulationRNG where
  source : RNGSource
  used : ℕ
deriving DecidableEq, Repr

/-- Queue parameters of one entry of the queues section of the config
dict; capacity, minArrival and maxArrival keys may be absent. -/
structure QueueParams where
  servers : ℤ
  capacity : Option ℤ
  minService : ℚ
  maxService : ℚ
  minArrival : Option ℚ
  maxArrival : Option ℚ
deriving DecidableEq, Repr

/-- One routing rule of the network section of the config. -/
structure RoutingRule where
  source : String
  target : String
  probability : ℚ
deriving DecidableEq, Repr

/-- The configuration dict as consumed by NetworkSimulator:
rndnumbers (optional replay list), presence of the batch key seeds,
optional seed, the queues dict (insertion ordered), the routing rules
and the arrivals targets. -/
structure Config where
  rndnumbers : Option (List ℚ)
  seedsPresent : Bool
  seed : Option ℤ
  queues : List (String × QueueParams)
  network : List RoutingRule
  arrivals : List (String × ℤ)
deriving DecidableEq, Repr

/-- rede_filas.py lines 60-68, SimulationRNG.__init__: the replay list
is selected iff rndnumbers is present and seeds is not; otherwise an
LCG seeded with config.get(seed, 1). -/
def SimulationRNG.init (cfg : Config) : SimulationRNG :=
  match cfg.rndnumbers, cfg.seedsPresent with
  | some l, false => { source := .list l, used := 0 }
  | some _, true => { source := .lcg (lcgInit (cfg.seed.getD 1)), used := 0 }
  | none, _ => { source := .lcg (lcgInit (cfg.seed.getD 1)), used := 0 }

/-- rede_filas.py lines 70-79, SimulationRNG.u: used is incremented
first; the replay variant then pops the next value or fails with the
exhaustion error, the LCG variant steps the recurrence. -/
def SimulationRNG.u (r : SimulationRNG) : Except SimError ℚ × SimulationRNG :=
  match r.source with
  | .list [] => (.error .exhausted, { source := .list [], used := r.used + 1 })
  | .list (x :: rest) => (.ok x, { source := .list rest, used := r.used + 1 })
  | .lcg g =>
      let p := g.next_random
      (.ok p.1, { source := .lcg p.2, used := r.used + 1 })

/-- rede_filas.py lines 20-34, dataclass Node. Samplers are closures
over a (min, max) range and the shared rng, so the node stores the
ranges. The admitted field is ghost instrumentation absent from the
Python class: it counts the admissions that returned True and
influences nothing. -/
structure Node where
  name : String
  c : ℤ
  k : ℤ
  serviceRange : ℚ × ℚ
  arrivalRange : Option (ℚ × ℚ)
  n : ℤ
  tempo_estado : List ℚ
  atendidos : ℤ
  perdas : ℤ
  admitted : ℤ
deriving DecidableEq, Repr

/-- rede_filas.py lines 36-41, Node.admit. -/
def Node.admit (nd : Node) : Bool × Node :=
  if nd.n ≥ nd.k then (false, { nd with perdas := nd.perdas + 1 })
  else (true, { nd with n := nd.n + 1, admitted := nd.admitted + 1 })

/-- rede_filas.py lines 50-53, Node.finish_service_one. -/
def Node.finish_service_one (nd : Node) : Node :=
  { nd with n := nd.n - 1, atendidos := nd.atendidos + 1 }

/-- Python list indexing semantics for l[i]: a nonnegative index in
range, a negative index wrapping from the end, otherwise IndexError. -/
def pyIdx (len : ℕ) (i : ℤ) : Option ℕ :=
  if 0 ≤ i ∧ i < (len : ℤ) then some i.toNat
  else if -(len : ℤ) ≤ i ∧ i < 0 then some ((len : ℤ) + i).toNat
  else none

/-- One node side of update_time_stats: tempo_estado[n] += dt. -/
def Node.addTempo (nd : Node) (dt : ℚ) : Except SimError Node :=
  match pyIdx nd.tempo_estado.length nd.n with
  | none => .error .indexError
  | some j =>
      .ok { nd with
              tempo_estado := nd.tempo_estado.set j (nd.tempo_estado.getD j 0 + dt) }

/-- The two event type strings scheduled by the simulator. -/
inductive EType where
  | arrival
  | departure
deriving DecidableEq, Repr

/-- rede_filas.py lines 13-18, dataclass Event; node_name is excluded
from comparison, so heap order is lexicographic on (time, seq) (seq is
unique so etype never decides). -/
structure Event where
  time : ℚ
  seq : ℕ
  etype : EType
  node_name : String
deriving DecidableEq, Repr

/-- The (time, seq) lexicographic order of the event heap. -/
def evLE (a b : Event) : Prop :=
  a.time < b.time ∨ (a.time = b.time ∧ a.seq ≤ b.seq)

/-- Keep the smaller of two events in (time, seq) lexicographic order,
preferring the first on ties. -/
def betterEv (a b : Event) : Event :=
  if b.time < a.time ∨ (b.time = a.time ∧ b.seq < a.seq) then b else a

/-- heapq.heappop: remove and return the least event in (time, seq)
order. -/
def popMin (l : List Event) : Option (Event × List Event) :=
  match l with
  | [] => none
  | x :: xs =>
      let m := xs.foldl betterEv x
      some (m, (x :: xs).erase m)

/-- Python dict lookup d.get(key) on an insertion-ordered
association list. -/
def dictGet {α : Type} (d : List (String × α)) (key : String) : Option α :=
  (d.find? (fun p => p.1 == key)).map (fun p => p.2)

/-- Python dict assignment d[key] = v: overwrite in place if the key
exists (keeping its position), else append. -/
def dictInsert {α : Type} (d : List (String × α)) (key : String) (v : α) :
    List (String × α) :=
  if d.any (fun p => p.1 == key) then
    d.map (fun p => if p.1 == key then (p.1, v) else p)
  else d ++ [(key, v)]

/-- In-place mutation of the object stored at an existing key. -/
def setVal {α : Type} (d : List (String × α)) (key : String) (v : α) :
    List (String × α) :=
  d.map (fun p => if p.1 == key then (p.1, v) else p)

/-- Node.__post_init__: tempo_estado = [0.0 for _ in range(k+1)]. -/
def mkTempoEstado (k : ℤ) : List ℚ := List.replicate (k + 1).toNat 0

/-- rede_filas.py lines 107-121, one step of the queues loop of
_build_network. capacity = int(params.get(capacity, float(inf))):
when the capacity key is absent, int(float(inf)) raises OverflowError,
modelled as an error. -/
def buildNode (name : String) (p : QueueParams) : Except SimError Node :=
  match p.capacity with
  | none => .error .overflowError
  | some cap =>
      .ok { name := name, c := p.servers, k := cap,
            serviceRange := (p.minService, p.maxService),
            arrivalRange :=
              match p.minArrival, p.maxArrival with
              | some a, some b => some (a, b)
              | _, _ => none,
            n := 0, tempo_estado := mkTempoEstado cap,
            atendidos := 0, perdas := 0, admitted := 0 }

/-- The queues loop of _build_network, building the nodes dict in
insertion order. -/
def buildNodes (acc : List (String × Node)) :
    List (String × QueueParams) → Except SimError (List (String × Node))
  | [] => .ok acc
  | (name, p) :: rest =>
      match buildNode name p with
      | .error e => .error e
      | .ok nd => buildNodes (dictInsert acc name nd) rest

/-- rede_filas.py lines 123-130: group the raw rules by source,
preserving first-appearance order of sources and rule order inside a
source. -/
def addRule (acc : List (String × List (String × ℚ))) (r : RoutingRule) :
    List (String × List (String × ℚ)) :=
  if acc.any (fun p => p.1 == r.source) then
    acc.map (fun p =>
      if p.1 == r.source then (p.1, p.2 ++ [(r.target, r.probability)]) else p)
  else acc ++ [(r.source, [(r.target, r.probability)])]

/-- Stable insertion by probability: the new entry goes after every
entry whose probability is ≤ its own, reproducing the stable Python
sort keyed on prob. -/
def insertByProb (x : String × ℚ) : List (String × ℚ) → List (String × ℚ)
  | [] => [x]
  | y :: ys => if y.2 ≤ x.2 then y :: insertByProb x ys else x :: y :: ys

/-- Python list.sort(key prob), a stable ascending sort. -/
def stableSortByProb (l : List (String × ℚ)) : List (String × ℚ) :=
  l.foldl (fun acc x => insertByProb x acc) []

/-- rede_filas.py lines 136-139: running cumulative sums of the sorted
per-source probabilities. -/
def cumulate (acc : ℚ) : List (String × ℚ) → List (String × ℚ)
  | [] => []
  | (t, p) :: rest => (t, acc + p) :: cumulate (acc + p) rest

/-- rede_filas.py lines 123-139: the routing table construction. -/
def buildRouting (rules : List RoutingRule) : List (String × List (String × ℚ)) :=
  (rules.foldl addRule []).map (fun p => (p.1, cumulate 0 (stableSortByProb p.2)))

/-- The mutable state of a NetworkSimulator instance. -/
structure SimState where
  rng : SimulationRNG
  nodes : List (String × Node)
  routing_table : List (String × List (String × ℚ))
  total_arrivals_target : ℤ
  total_arrivals_count : ℤ
  time : ℚ
  last_update_time : ℚ
  events : List Event
  seq_counter : ℕ
deriving DecidableEq, Repr

/-- rede_filas.py lines 86-98 plus _build_network lines 106-142:
NetworkSimulator.__init__. -/
def initSim (cfg : Config) : Except SimError SimState :=
  match buildNodes [] cfg.queues with
  | .error e => .error e
  | .ok nodes =>
      .ok { rng := SimulationRNG.init cfg,
            nodes := nodes,
            routing_table := buildRouting cfg.network,
            total_arrivals_target := (cfg.arrivals.map (fun p => p.2)).sum,
            total_arrivals_count := 0,
            time := 0, last_update_time := 0, events := [], seq_counter := 0 }

/-- rede_filas.py lines 144-147, NetworkSimulator.schedule. -/
def scheduleEv (st : SimState) (t : ℚ) (ty : EType) (nm : String) : SimState :=
  { st with
      seq_counter := st.seq_counter + 1,
      events := { time := t, seq := st.seq_counter + 1, etype := ty,
                  node_name := nm } :: st.events }

/-- The inner loop of update_time_stats over all nodes, in dict
order. -/
def updateNodesTempo (dt : ℚ) :
    List (String × Node) → Except SimError (List (String × Node))
  | [] => .ok []
  | (nm, nd) :: rest =>
      match nd.addTempo dt with
      | .error e => .error e
      | .ok nd' =>
          match updateNodesTempo dt rest with
          | .error e => .error e
          | .ok rest' => .ok ((nm, nd') :: rest')

/-- rede_filas.py lines 149-155, NetworkSimulator.update_time_stats:
with dt = t_new - last_update_time, when dt > 0 every node accumulates
dt at its current occupancy; last_update_time always advances to
t_new. -/
def update_time_stats (st : SimState) (t_new : ℚ) : Except SimError SimState :=
  if 0 < t_new - st.last_update_time then
    match updateNodesTempo (t_new - st.last_update_time) st.nodes with
    | .error e => .error e
    | .ok nodes' => .ok { st with nodes := nodes', last_update_time := t_new }
  else .ok { st with last_update_time := t_new }

/-- rede_filas.py lines 100-104: one call of a sampler closure,
min + (max - min) * rng.u(). -/
def drawSample (st : SimState) (mn mx : ℚ) : Except SimError (ℚ × SimState) :=
  match st.rng.u with
  | (.error e, _) => .error e
  | (.ok uv, rng2) => .ok (mn + (mx - mn) * uv, { st with rng := rng2 })

/-- The scan of the cumulative table inside pick_destination: first
target whose cumulative probability is strictly above the deviate. -/
def pickScan (uv : ℚ) : List (String × ℚ) → Option String
  | [] => none
  | (t, cp) :: rest => if uv < cp then some t else pickScan uv rest

/-- rede_filas.py lines 157-168, NetworkSimulator.pick_destination.
A missing key or an empty rule list (Python falsiness of rules) gives
None without drawing a deviate; otherwise one deviate is drawn and the
table scanned. -/
def pick_destination (st : SimState) (source : String) :
    Except SimError (Option String) × SimulationRNG :=
  match dictGet st.routing_table source with
  | none => (.ok none, st.rng)
  | some [] => (.ok none, st.rng)
  | some (r0 :: rs) =>
      match st.rng.u with
      | (.error e, rng2) => (.error e, rng2)
      | (.ok uv, rng2) => (.ok (pickScan uv (r0 :: rs)), rng2)

/-- rede_filas.py lines 188-190 (also the initial scheduling, lines
173-175, uses the same sampler): if the node owns an arrival sampler,
sample the next inter-arrival time and schedule the next external
arrival at now + it. -/
def scheduleNextExternal (st : SimState) (fila : Node) : Except SimError SimState :=
  match fila.arrivalRange with
  | none => .ok st
  | some (mn, mx) =>
      match drawSample st mn mx with
      | .error e => .error e
      | .ok (ia, st2) => .ok (scheduleEv st2 (st2.time + ia) .arrival fila.name)

/-- rede_filas.py lines 193-196 and 208-211, the shared admission
block: attempt admission on the node stored at key; if admitted and a
server is free (n ≤ c after the increment), sample a service time and
schedule this node's departure. -/
def admitAndMaybeSchedule (st : SimState) (key : String) (fila : Node) :
    Except SimError SimState :=
  match Node.admit fila with
  | (admitted, fila2) =>
      if admitted then
        if fila2.n ≤ fila2.c then
          match drawSample { st with nodes := setVal st.nodes key fila2 }
              fila2.serviceRange.1 fila2.serviceRange.2 with
          | .error e => .error e
          | .ok (s, st5) => .ok (scheduleEv st5 (st5.time + s) .departure fila2.name)
        else .ok { st with nodes := setVal st.nodes key fila2 }
      else .ok { st with nodes := setVal st.nodes key fila2 }

/-- rede_filas.py lines 184-196: the ARRIVAL branch of the event loop.
key is the dict key the event named; fila the node object fetched
there. -/
def handleArrival (st : SimState) (key : String) (fila : Node) :
    Except SimError SimState :=
  match scheduleNextExternal
      { st with total_arrivals_count := st.total_arrivals_count + 1 } fila with
  | .error e => .error e
  | .ok st3 => admitAndMaybeSchedule st3 key fila

/-- rede_filas.py lines 201-203: after a service completion, if the
servers are still saturated (n ≥ c), sample and schedule the next
departure of this node. -/
def rescheduleIfBusy (st : SimState) (fila2 : Node) : Except SimError SimState :=
  if fila2.n ≥ fila2.c then
    match drawSample st fila2.serviceRange.1 fila2.serviceRange.2 with
    | .error e => .error e
    | .ok (s, st2) => .ok (scheduleEv st2 (st2.time + s) .departure fila2.name)
  else .ok st

/-- rede_filas.py lines 205-211: resolve routing of the departed
customer; on a chosen (truthy) destination, attempt admission there
with the shared admission block. -/
def routeDeparted (st : SimState) (fila2 : Node) : Except SimError SimState :=
  match pick_destination st fila2.name with
  | (.error e, _) => .error e
  | (.ok dest, rng2) =>
      match dest with
      | none => .ok { st with rng := rng2 }
      | some d =>
          if d = "" then .ok { st with rng := rng2 }
          else
            match dictGet st.nodes d with
            | none => .error .keyError
            | some filaD => admitAndMaybeSchedule { st with rng := rng2 } d filaD

/-- rede_filas.py lines 198-211: the DEPARTURE branch of the event
loop. -/
def handleDeparture (st : SimState) (key : String) (fila : Node) :
    Except SimError SimState :=
  match rescheduleIfBusy { st with nodes := setVal st.nodes key fila.finish_service_one }
      fila.finish_service_one with
  | .error e => .error e
  | .ok st3 => routeDeparted st3 fila.finish_service_one

/-- One iteration of the while loop of run (rede_filas.py lines
178-211): pop the earliest event, update the time statistics, advance
the clock, dispatch on the event type. -/
def stepBody (st : SimState) : Except SimError SimState :=
  match popMin st.events with
  | none => .ok st
  | some (ev, rest) =>
      match update_time_stats { st with events := rest } ev.time with
      | .error e => .error e
      | .ok st1 =>
          match dictGet st1.nodes ev.node_name with
          | none => .error .keyError
          | some fila =>
              match ev.etype with
              | .arrival => handleArrival { st1 with time := ev.time } ev.node_name fila
              | .departure => handleDeparture { st1 with time := ev.time } ev.node_name fila

/-- rede_filas.py line 177, the while condition. -/
def loopCond (st : SimState) : Bool :=
  !st.events.isEmpty &&
    (st.total_arrivals_target == 0 ||
      decide (st.total_arrivals_count < st.total_arrivals_target))

/-- rede_filas.py lines 171-175: schedule the first external arrival
of every node owning an arrival sampler, in dict order. -/
def initArrivals : List (String × Node) → SimState → Except SimError SimState
  | [], st => .ok st
  | (name, nd) :: rest, st =>
      match nd.arrivalRange with
      | none => initArrivals rest st
      | some (mn, mx) =>
          match drawSample st mn mx with
          | .error e => .error e
          | .ok (t, st') => initArrivals rest (scheduleEv st' t .arrival name)

/-- The while loop of run with explicit fuel; none means the fuel ran
out with the loop condition still true. -/
def runLoop : ℕ → SimState → Option (Except SimError SimState)
  | 0, st => if loopCond st then none else some (.ok st)
  | fuel + 1, st =>
      if loopCond st then
        match stepBody st with
        | .error e => some (.error e)
        | .ok st' => runLoop fuel st'
      else some (.ok st)

/-- The sequence of events popped by the loop, for stating that runs
replay identical event sequences. -/
def runLoopTrace : ℕ → SimState → List Event
  | 0, _ => []
  | fuel + 1, st =>
      if loopCond st then
        match popMin st.events with
        | none => []
        | some (ev, _) =>
            match stepBody st with
            | .error _ => [ev]
            | .ok st' => ev :: runLoopTrace fuel st'
      else []

/-- Per-node output record of _get_results. -/
structure FilaResult where
  servidores : ℤ
  capacidade : ℤ
  atendidos : ℤ
  perdas : ℤ
  tempo_estado : List ℚ
  prob_estado : List ℚ
deriving DecidableEq, Repr

/-- Output record of _get_results. -/
structure Results where
  tempo_global : ℚ
  randoms_usados : ℕ
  chegadas_totais : ℤ
  filas : List (String × FilaResult)
deriving DecidableEq, Repr

/-- rede_filas.py lines 216-233, NetworkSimulator._get_results. -/
def getResults (st : SimState) : Results :=
  { tempo_global := st.time,
    randoms_usados := st.rng.used,
    chegadas_totais := st.total_arrivals_count,
    filas := st.nodes.map (fun p =>
      let total := p.2.tempo_estado.sum
      (p.1, { servidores := p.2.c, capacidade := p.2.k,
              atendidos := p.2.atendidos, perdas := p.2.perdas,
              tempo_estado := p.2.tempo_estado,
              prob_estado := p.2.tempo_estado.map
                (fun t => if 0 < total then t / total else 0) })) }

/-- NetworkSimulator construction followed by run, up to and including
the final statistics update; none means the fuel ran out. -/
def runSim (fuel : ℕ) (cfg : Config) : Option (Except SimError SimState) :=
  match initSim cfg with
  | .error e => some (.error e)
  | .ok st =>
      match initArrivals st.nodes st with
      | .error e => some (.error e)
      | .ok st1 =>
          match runLoop fuel st1 with
          | none => none
          | some (.error e) => some (.error e)
          | some (.ok st2) =>
              match update_time_stats st2 st2.time with
              | .error e => some (.error e)
              | .ok st3 => some (.ok st3)

/-- run including the final result extraction. -/
def runResults (fuel : ℕ) (cfg : Config) : Option (Except SimError Results) :=
  (runSim fuel cfg).map (fun r => r.map getResults)

/-- The sequence of events processed by a full run (empty when
construction or initial scheduling fails). -/
def runTrace (fuel : ℕ) (cfg : Config) : List Event :=
  match initSim cfg with
  | .error _ => []
  | .ok st =>
      match initArrivals st.nodes st with
      | .error _ => []
      | .ok st1 => runLoopTrace fuel st1

/-- States of the event loop reachable in some run of a
configuration: the state right after construction and initial arrival
scheduling, and every successful loop iteration after it. -/
inductive Reachable (cfg : Config) : SimState → Prop where
  | init : ∀ st st', initSim cfg = .ok st → initArrivals st.nodes st = .ok st' →
      Reachable cfg st'
  | step : ∀ st st', Reachable cfg st → loopCond st = true → stepBody st = .ok st' →
      Reachable cfg st'

/-- A node whose sampler ranges are nonnegative and well ordered, so
that its sampled durations are nonnegative. -/
def RangesGood (nd : Node) : Prop :=
  0 ≤ nd.serviceRange.1 ∧ nd.serviceRange.1 ≤ nd.serviceRange.2 ∧
    ∀ a b, nd.arrivalRange = some (a, b) → 0 ≤ a ∧ a ≤ b

/-- A deviate source whose future draws are all nonnegative: every
remaining replay value is nonnegative, and an LCG has positive
modulus (the constructed one has m = 2^32). -/
def goodRng (r : SimulationRNG) : Prop :=
  (∀ l, r.source = .list l → ∀ x ∈ l, 0 ≤ x) ∧
  (∀ g, r.source = .lcg g → 0 < g.m)

/-- Configurations whose sampler ranges are nonnegative and ordered
and whose replay deviates, if any, are nonnegative. -/
def GoodConfig (cfg : Config) : Prop :=
  (∀ p ∈ cfg.queues,
      0 ≤ p.2.minService ∧ p.2.minService ≤ p.2.maxService ∧
      ∀ a b, p.2.minArrival = some a → p.2.maxArrival = some b → 0 ≤ a ∧ a ≤ b) ∧
  (∀ l, cfg.rndnumbers = some l → ∀ x ∈ l, 0 ≤ x)

/-- Configurations declaring only nonnegative capacities. -/
def CapsGood (cfg : Config) : Prop :=
  ∀ p ∈ cfg.queues, ∀ cp, p.2.capacity = some cp → 0 ≤ cp

/-- Number of pending departure events of a given node. -/
def depCount (events : List Event) (nm : String) : ℕ :=
  events.countP (fun e => e.etype == EType.departure && e.node_name == nm)

/-- The invariant behind claim C1: the clock and the last statistics
update agree between iterations, no pending event lies in the past,
every node's accumulated time-in-state sums to the clock, and all
future samples are nonnegative. -/
def TimeInv (st : SimState) : Prop :=
  st.time = st.last_update_time ∧
  (∀ e ∈ st.events, st.last_update_time ≤ e.time) ∧
  (∀ p ∈ st.nodes, p.2.tempo_estado.sum = st.last_update_time) ∧
  (∀ p ∈ st.nodes, RangesGood p.2) ∧
  goodRng st.rng

/-- The per-node conservation law of claim C5: successful admissions
are exactly the served customers plus the current occupancy. -/
def NodeCons (nd : Node) : Prop := nd.admitted = nd.atendidos + nd.n

/-- The invariant behind claim C5, over all nodes. -/
def ConsInv (st : SimState) : Prop :=
  ∀ p ∈ st.nodes, NodeCons p.2

/-- The invariant behind claim C2: every node satisfies the capacity
bounds, its name agrees with its dict key, and its pending departure
events number exactly max 0 (min n c). -/
def CapInv (st : SimState) : Prop :=
  ∀ p ∈ st.nodes, p.2.name = p.1 ∧ 0 ≤ p.2.k ∧ 0 ≤ p.2.n ∧ p.2.n ≤ p.2.k ∧
    (depCount st.events p.1 : ℤ) = max 0 (min p.2.n p.2.c)

/-- The scenario of claim C3: one node, one server, capacity one,
deterministic inter-arrival 1 and service 0.5, three target arrivals,
replay deviates [0,0,0,0,0,0]. -/
def cfg3 : Config :=
  { rndnumbers := some [0, 0, 0, 0, 0, 0], seedsPresent := false, seed := none,
    queues := [("Q", { servers := 1, capacity := some 1,
                       minService := 1/2, maxService := 1/2,
                       minArrival := some 1, maxArrival := some 1 })],
    network := [], arrivals := [("Q", 3)] }

/-- Like cfg3 with a single target arrival and three replay deviates,
enough for the run to complete; used to witness claim C1. -/
def cfgW1 : Config :=
  { rndnumbers := some [0, 0, 0], seedsPresent := false, seed := none,
    queues := [("Q", { servers := 1, capacity := some 1,
                       minService := 1/2, maxService := 1/2,
                       minArrival := some 1, maxArrival := some 1 })],
    network := [], arrivals := [("Q", 1)] }

/-- The per-node results of running cfgW1. -/
def filaW1 : FilaResult :=
  { servidores := 1, capacidade := 1, atendidos := 0, perdas := 0,
    tempo_estado := [1, 0], prob_estado := [1, 0] }

/-- The results of running cfgW1. -/
def resW1 : Results :=
  { tempo_global := 1, randoms_usados := 3, chegadas_totais := 1,
    filas := [("Q", filaW1)] }

/-- A minimal configuration whose run processes no events: one node
with no arrival sampler, one server, capacity zero. -/
def cfgW5 : Config :=
  { rndnumbers := none, seedsPresent := false, seed := none,
    queues := [("Q", { servers := 1, capacity := some 0,
                       minService := 1, maxService := 1,
                       minArrival := none, maxArrival := none })],
    network := [], arrivals := [] }

/-- The node built from cfgW5. -/
def nodeW5 : Node :=
  { name := "Q", c := 1, k := 0, serviceRange := (1, 1), arrivalRange := none,
    n := 0, tempo_estado := [0], atendidos := 0, perdas := 0, admitted := 0 }

/-- The state of cfgW5 after construction, which the empty event set
leaves untouched. -/
def stW5 : SimState :=
  { rng := { source := .lcg (lcgInit 1), used := 0 },
    nodes := [("Q", nodeW5)], routing_table := [],
    total_arrivals_target := 0, total_arrivals_count := 0,
    time := 0, last_update_time := 0, events := [], seq_counter := 0 }

/-- A configuration with an empty replay list and a node that needs a
deviate for its first arrival, so the run aborts at once. -/
def cfgExhaust : Config :=
  { rndnumbers := some [], seedsPresent := false, seed := none,
    queues := [("Q", { servers := 1, capacity := some 1,
                       minService := 1, maxService := 1,
                       minArrival := some 1, maxArrival := some 1 })],
    network := [], arrivals := [("Q", 1)] }

/-- A configuration whose only queue omits the capacity key. -/
def cfgNoCap : Config :=
  { rndnumbers := none, seedsPresent := false, seed := none,
    queues := [("Q", { servers := 1, capacity := none,
                       minService := 1, maxService := 2,
                       minArrival := some 1, maxArrival := some 2 })],
    network := [], arrivals := [] }

/-- Contradictory RNG input: both a replay sequence and a seed. -/
def cfgBoth : Config :=
  { rndnumbers := some [1/2], seedsPresent := false, seed := some 7,
    queues := [("Q", { servers := 1, capacity := some 1,
                       minService := 1, maxService := 1,
                       minArrival := none, maxArrival := none })],
    network := [], arrivals := [] }

/-- Both a replay sequence and the batch seeds key present. -/
def cfgBothSeeds : Config :=
  { cfgBoth with seedsPresent := true }

/-- Malformed input: a negative capacity. -/
def cfgNegCap : Config :=
  { rndnumbers := none, seedsPresent := false, seed := none,
    queues := [("Q", { servers := 1, capacity := some (-3),
                       minService := 1, maxService := 1,
                       minArrival := none, maxArrival := none })],
    network := [], arrivals := [] }

/-- Malformed input: a routing probability above one. -/
def cfgBadProb : Config :=
  { rndnumbers := none, seedsPresent := false, seed := none,
    queues := [("Q", { servers := 1, capacity := some 1,
                       minService := 1, maxService := 1,
                       minArrival := none, maxArrival := none })],
    network := [RoutingRule.mk "Q" "R" (3/2)], arrivals := [] }

/-- A state holding the routing table of the claim C4 example and a
one-value replay source. -/
def stC4 : SimState :=
  { rng := { source := .list [1/2], used := 0 },
    nodes := [], routing_table := [("source", [("A", 3/10), ("B", 1)])],
    total_arrivals_target := 0, total_arrivals_count := 0,
    time := 0, last_update_time := 0, events := [], seq_counter := 0 }

/-! ## Theorems -/

/-! ### Spec lemmas for the engine operations -/

/-- A successful sampler draw: the deviate source yielded a value, the
sample is the affine image of it, and only the rng changed. -/
theorem drawSample_ok_eq {st : SimState} {mn mx v : ℚ} {st' : SimState}
    (h : drawSample st mn mx = .ok (v, st')) :
    ∃ uv rng2, st.rng.u = (.ok uv, rng2) ∧ v = mn + (mx - mn) * uv ∧
      st' = { st with rng := rng2 } := by
  unfold drawSample at h
  split at h
  · cases h
  · rename_i uv rng2 heq
    simp only [Except.ok.injEq, Prod.mk.injEq] at h
    exact ⟨uv, rng2, heq, h.1.symm, h.2.symm⟩

/-- A successful tempo update changes only the tempo_estado list. -/
theorem addTempo_fields {nd nd' : Node} {dt : ℚ} (h : nd.addTempo dt = .ok nd') :
    nd' = { nd with tempo_estado := nd'.tempo_estado } := by
  unfold Node.addTempo at h
  split at h
  · cases h
  · simp only [Except.ok.injEq] at h
    rw [← h]

/-- Members of the updated node list come from members of the input
list by a successful tempo update, with the same key. -/
theorem updateNodesTempo_mem {dt : ℚ} :
    ∀ {ns ns' : List (String × Node)}, updateNodesTempo dt ns = .ok ns' →
      ∀ q ∈ ns', ∃ p, p ∈ ns ∧ q.1 = p.1 ∧ p.2.addTempo dt = .ok q.2 := by
  intro ns
  induction ns with
  | nil =>
      intro ns' h q hq
      unfold updateNodesTempo at h
      simp only [Except.ok.injEq] at h
      subst h
      cases hq
  | cons hd tl ih =>
      intro ns' h q hq
      obtain ⟨nm, nd⟩ := hd
      unfold updateNodesTempo at h
      split at h
      · cases h
      · rename_i nd2 h1
        split at h
        · cases h
        · rename_i tl2 h2
          simp only [Except.ok.injEq] at h
          subst h
          rcases List.mem_cons.mp hq with hq | hq
          · subst hq
            exact ⟨(nm, nd), List.mem_cons_self _ _, rfl, h1⟩
          · obtain ⟨p, hp, hk, ha⟩ := ih h2 q hq
            exact ⟨p, List.mem_cons_of_mem _ hp, hk, ha⟩

/-- Members of setVal are the new value or old members. -/
theorem mem_setVal {α : Type} {d : List (String × α)} {key : String} {v : α} :
    ∀ q ∈ setVal d key v, q.2 = v ∨ q ∈ d := by
  intro q hq
  unfold setVal at hq
  rcases List.mem_map.mp hq with ⟨p, hp, hpq⟩
  by_cases hk : (p.1 == key) = true
  · rw [if_pos hk] at hpq
    left
    rw [← hpq]
  · rw [if_neg hk] at hpq
    right
    rw [← hpq]
    exact hp

/-- A successful dict lookup yields a member with that key. -/
theorem dictGet_mem {α : Type} {d : List (String × α)} {nm : String} {v : α}
    (h : dictGet d nm = some v) : (nm, v) ∈ d := by
  unfold dictGet at h
  cases hf : d.find? (fun p => p.1 == nm) with
  | none => rw [hf] at h; cases h
  | some p =>
      rw [hf] at h
      obtain ⟨a, b⟩ := p
      simp only [Option.map_some', Option.some.injEq] at h
      have hpred := List.find?_some hf
      have hmem := List.mem_of_find?_eq_some hf
      have ha : a = nm := by simpa using hpred
      subst ha
      subst h
      exact hmem

/-- A successful statistics update: everything but the nodes and
last_update_time is unchanged, and the nodes either kept their value
(dt ≤ 0) or come from a successful updateNodesTempo. -/
theorem update_time_stats_ok {st : SimState} {t : ℚ} {st' : SimState}
    (h : update_time_stats st t = .ok st') :
    st'.events = st.events ∧ st'.rng = st.rng ∧ st'.time = st.time ∧
    st'.last_update_time = t ∧
    st'.total_arrivals_target = st.total_arrivals_target ∧
    st'.total_arrivals_count = st.total_arrivals_count ∧
    st'.seq_counter = st.seq_counter ∧ st'.routing_table = st.routing_table ∧
    ((st'.nodes = st.nodes ∧ ¬ 0 < t - st.last_update_time) ∨
      (updateNodesTempo (t - st.last_update_time) st.nodes = .ok st'.nodes ∧
        0 < t - st.last_update_time)) := by
  unfold update_time_stats at h
  split at h
  · rename_i hpos
    split at h
    · cases h
    · rename_i ns hup
      simp only [Except.ok.injEq] at h
      subst h
      exact ⟨rfl, rfl, rfl, rfl, rfl, rfl, rfl, rfl, Or.inr ⟨hup, hpos⟩⟩
  · rename_i hneg
    simp only [Except.ok.injEq] at h
    subst h
    exact ⟨rfl, rfl, rfl, rfl, rfl, rfl, rfl, rfl, Or.inl ⟨rfl, hneg⟩⟩

/-! ### Conservation (claim C5) -/

/-- Admission preserves the conservation law. -/
theorem admit_nodeCons {nd nd2 : Node} {b : Bool} (hadm : Node.admit nd = (b, nd2))
    (h : NodeCons nd) : NodeCons nd2 := by
  unfold Node.admit at hadm
  unfold NodeCons at h ⊢
  split at hadm <;> simp only [Prod.mk.injEq] at hadm <;> rw [← hadm.2] <;>
    simp <;> omega

/-- Service completion preserves the conservation law. -/
theorem nodeCons_finish {nd : Node} (h : NodeCons nd) :
    NodeCons nd.finish_service_one := by
  unfold NodeCons at h ⊢
  unfold Node.finish_service_one
  simp
  omega

/-- Time accumulation preserves the conservation law. -/
theorem nodeCons_addTempo {nd nd' : Node} {dt : ℚ} (h : nd.addTempo dt = .ok nd')
    (hc : NodeCons nd) : NodeCons nd' := by
  rw [addTempo_fields h]
  exact hc

/-- The statistics sweep preserves the conservation invariant. -/
theorem consInv_updateNodes {dt : ℚ} {ns ns' : List (String × Node)}
    (h : updateNodesTempo dt ns = .ok ns') (hP : ∀ p ∈ ns, NodeCons p.2) :
    ∀ p ∈ ns', NodeCons p.2 := by
  intro q hq
  obtain ⟨p, hp, _, hadd⟩ := updateNodesTempo_mem h q hq
  exact nodeCons_addTempo hadd (hP p hp)

/-- Storing a conserving node preserves the invariant. -/
theorem consInv_setVal {ns : List (String × Node)} {key : String} {v : Node}
    (hP : ∀ p ∈ ns, NodeCons p.2) (hv : NodeCons v) :
    ∀ p ∈ setVal ns key v, NodeCons p.2 := by
  intro q hq
  rcases mem_setVal q hq with h | h
  · rw [h]; exact hv
  · exact hP q h

/-- The shared admission block preserves the conservation invariant. -/
theorem consInv_admitAndMaybeSchedule {st : SimState} {key : String} {fila : Node}
    {st' : SimState} (h : admitAndMaybeSchedule st key fila = .ok st')
    (hP : ConsInv st) (hf : NodeCons fila) : ConsInv st' := by
  unfold admitAndMaybeSchedule at h
  split at h
  rename_i admitted fila2 hadm
  have hf2 : NodeCons fila2 := admit_nodeCons hadm hf
  have hP4 : ∀ p ∈ setVal st.nodes key fila2, NodeCons p.2 := consInv_setVal hP hf2
  split at h
  · split at h
    · split at h
      · cases h
      · rename_i s st5 hd
        simp only [Except.ok.injEq] at h
        subst h
        obtain ⟨uv, rng2, _, _, hst5⟩ := drawSample_ok_eq hd
        subst hst5
        intro q hq
        exact hP4 q hq
    · simp only [Except.ok.injEq] at h
      subst h
      intro q hq
      exact hP4 q hq
  · simp only [Except.ok.injEq] at h
    subst h
    intro q hq
    exact hP4 q hq

/-- Scheduling the next external arrival preserves the conservation
invariant. -/
theorem consInv_scheduleNextExternal {st : SimState} {fila : Node} {st' : SimState}
    (h : scheduleNextExternal st fila = .ok st') (hP : ConsInv st) : ConsInv st' := by
  unfold scheduleNextExternal at h
  split at h
  · simp only [Except.ok.injEq] at h
    subst h
    exact hP
  · split at h
    · cases h
    · rename_i ia st2 hd
      simp only [Except.ok.injEq] at h
      subst h
      obtain ⟨uv, rng2, _, _, hst2⟩ := drawSample_ok_eq hd
      subst hst2
      intro q hq
      exact hP q hq

/-- Rescheduling a busy server preserves the conservation invariant. -/
theorem consInv_rescheduleIfBusy {st : SimState} {fila2 : Node} {st' : SimState}
    (h : rescheduleIfBusy st fila2 = .ok st') (hP : ConsInv st) : ConsInv st' := by
  unfold rescheduleIfBusy at h
  split at h
  · split at h
    · cases h
    · rename_i s st2 hd
      simp only [Except.ok.injEq] at h
      subst h
      obtain ⟨uv, rng2, _, _, hst2⟩ := drawSample_ok_eq hd
      subst hst2
      intro q hq
      exact hP q hq
  · simp only [Except.ok.injEq] at h
    subst h
    exact hP

/-- Routing of a departed customer preserves the conservation
invariant. -/
theorem consInv_routeDeparted {st : SimState} {fila2 : Node} {st' : SimState}
    (h : routeDeparted st fila2 = .ok st') (hP : ConsInv st) : ConsInv st' := by
  unfold routeDeparted at h
  split at h
  · cases h
  · rename_i dest rng2 hpd
    split at h
    · simp only [Except.ok.injEq] at h
      subst h
      intro q hq
      exact hP q hq
    · split at h
      · simp only [Except.ok.injEq] at h
        subst h
        intro q hq
        exact hP q hq
      · split at h
        · cases h
        · rename_i filaD hD
          have hfD : NodeCons filaD := hP _ (dictGet_mem hD)
          have : ConsInv { st with rng := rng2 } := fun q hq => hP q hq
          exact consInv_admitAndMaybeSchedule h this hfD

/-- One loop iteration preserves the conservation invariant. -/
theorem consInv_stepBody {st st' : SimState} (h : stepBody st = .ok st')
    (hP : ConsInv st) : ConsInv st' := by
  unfold stepBody at h
  split at h
  · simp only [Except.ok.injEq] at h
    subst h
    exact hP
  · rename_i ev rest hpop
    split at h
    · cases h
    · rename_i st1 hupd
      have hP1 : ConsInv st1 := by
        rcases (update_time_stats_ok hupd).2.2.2.2.2.2.2.2 with ⟨hsame, -⟩ | ⟨hup, -⟩
        · intro q hq
          rw [hsame] at hq
          exact hP q hq
        · exact consInv_updateNodes hup (fun p hp => hP p hp)
      split at h
      · cases h
      · rename_i fila hget
        have hf : NodeCons fila :=
          hP1 _ (dictGet_mem hget)
        split at h
        · -- arrival
          unfold handleArrival at h
          split at h
          · cases h
          · rename_i st3 hnext
            have hP3 : ConsInv st3 :=
              consInv_scheduleNextExternal hnext (fun q hq => hP1 q hq)
            exact consInv_admitAndMaybeSchedule h hP3 hf
        · -- departure
          unfold handleDeparture at h
          split at h
          · cases h
          · rename_i st3 hres
            have hP2 : ∀ p ∈ setVal st1.nodes ev.node_name fila.finish_service_one,
                NodeCons p.2 :=
              consInv_setVal (fun p hp => hP1 p hp) (nodeCons_finish hf)
            have hP3 : ConsInv st3 := consInv_rescheduleIfBusy hres (fun q hq => hP2 q hq)
            exact consInv_routeDeparted h hP3

/-- The fuelled while loop preserves any invariant preserved by its
body. -/
theorem runLoop_ok_inv {P : SimState → Prop}
    (hstep : ∀ st st', P st → stepBody st = .ok st' → P st') :
    ∀ (fuel : ℕ) (st st' : SimState), P st → runLoop fuel st = some (.ok st') → P st' := by
  intro fuel
  induction fuel with
  | zero =>
      intro st st' hP hrun
      unfold runLoop at hrun
      split at hrun
      · cases hrun
      · simp only [Option.some.injEq, Except.ok.injEq] at hrun
        subst hrun
        exact hP
  | succ n ih =>
      intro st st' hP hrun
      unfold runLoop at hrun
      split at hrun
      · split at hrun
        · cases hrun
        · rename_i st1 hstep1
          exact ih st1 st' (hstep st st1 hP hstep1) hrun
      · simp only [Option.some.injEq, Except.ok.injEq] at hrun
        subst hrun
        exact hP

/-- Initial arrival scheduling preserves the conservation invariant
(it only draws deviates and schedules events). -/
theorem consInv_initArrivals :
    ∀ (l : List (String × Node)) (st st' : SimState),
      initArrivals l st = .ok st' → ConsInv st → ConsInv st' := by
  intro l
  induction l with
  | nil =>
      intro st st' h hP
      unfold initArrivals at h
      simp only [Except.ok.injEq] at h
      subst h
      exact hP
  | cons hd tl ih =>
      intro st st' h hP
      obtain ⟨name, nd⟩ := hd
      unfold initArrivals at h
      split at h
      · exact ih st st' h hP
      · split at h
        · cases h
        · rename_i t st2 hd2
          obtain ⟨uv, rng2, _, _, hst2⟩ := drawSample_ok_eq hd2
          subst hst2
          exact ih _ st' h (fun q hq => hP q hq)

/-- Construction gives conserving nodes: everything starts at zero. -/
theorem consInv_buildNodes :
    ∀ (qs : List (String × QueueParams)) (acc ns : List (String × Node)),
      buildNodes acc qs = .ok ns → (∀ p ∈ acc, NodeCons p.2) →
      ∀ p ∈ ns, NodeCons p.2 := by
  intro qs
  induction qs with
  | nil =>
      intro acc ns h hacc
      unfold buildNodes at h
      simp only [Except.ok.injEq] at h
      subst h
      exact hacc
  | cons hd tl ih =>
      intro acc ns h hacc
      obtain ⟨name, params⟩ := hd
      unfold buildNodes at h
      split at h
      · cases h
      · rename_i nd hb
        refine ih _ ns h ?_
        intro q hq
        unfold dictInsert at hq
        split at hq
        · rcases List.mem_map.mp hq with ⟨p, hp, hpq⟩
          by_cases hk : (p.1 == name) = true
          · rw [if_pos hk] at hpq
            have : q.2 = nd := by rw [← hpq]
            rw [this]
            unfold buildNode at hb
            split at hb
            · cases hb
            · simp only [Except.ok.injEq] at hb
              rw [← hb]
              unfold NodeCons
              simp
          · rw [if_neg hk] at hpq
            rw [← hpq]
            exact hacc p hp
        · rcases List.mem_append.mp hq with hq | hq
          · exact hacc q hq
          · simp only [List.mem_singleton] at hq
            subst hq
            unfold buildNode at hb
            split at hb
            · cases hb
            · simp only [Except.ok.injEq] at hb
              rw [← hb]
              unfold NodeCons
              simp

/-- Claim C5: at the end of every completed run, every node's
successful admissions are accounted exactly once: admitted = served +
final occupancy. -/
theorem claim_C5 (cfg : Config) (fuel : ℕ) (st : SimState)
    (hrun : runSim fuel cfg = some (.ok st)) :
    ∀ p ∈ st.nodes, p.2.admitted = p.2.atendidos + p.2.n := by
  unfold runSim at hrun
  split at hrun
  · cases hrun
  · rename_i st0 hinit
    split at hrun
    · cases hrun
    · rename_i st1 harr
      split at hrun
      · cases hrun
      · cases hrun
      · rename_i st2 hloop
        split at hrun
        · cases hrun
        · rename_i st3 hfinal
          simp only [Option.some.injEq, Except.ok.injEq] at hrun
          subst hrun
          have h0 : ConsInv st0 := by
            unfold initSim at hinit
            split at hinit
            · cases hinit
            · rename_i ns hb
              simp only [Except.ok.injEq] at hinit
              subst hinit
              intro q hq
              exact consInv_buildNodes cfg.queues [] ns hb (by intro p hp; cases hp) q hq
          have h1 : ConsInv st1 := consInv_initArrivals st0.nodes st0 st1 harr h0
          have h2 : ConsInv st2 :=
            runLoop_ok_inv (fun _ _ hp hs => consInv_stepBody hs hp) fuel st1 st2 h1 hloop
          have h3 : ConsInv st3 := by
            rcases (update_time_stats_ok hfinal).2.2.2.2.2.2.2.2 with ⟨hsame, -⟩ | ⟨hup, -⟩
            · intro q hq
              rw [hsame] at hq
              exact h2 q hq
            · exact consInv_updateNodes hup (fun p hp => h2 p hp)
          exact h3

/-- Witness for claim C5 at the concrete run of cfgW5. -/
theorem claim_C5_witness :
    runSim 1 cfgW5 = some (.ok stW5) ∧
    nodeW5.admitted = nodeW5.atendidos + nodeW5.n :=
  ⟨by decide, claim_C5 cfgW5 1 stW5 (by decide) ("Q", nodeW5) (by decide)⟩

/-! ### Event ordering and popMin -/

/-- betterEv picks one of its arguments. -/
theorem betterEv_eq_or (a b : Event) : betterEv a b = a ∨ betterEv a b = b := by
  unfold betterEv
  split
  · exact Or.inr rfl
  · exact Or.inl rfl

/-- betterEv is below its first argument. -/
theorem betterEv_le_left (a b : Event) : evLE (betterEv a b) a := by
  unfold betterEv evLE
  split
  · rename_i hc
    rcases hc with h | ⟨h1, h2⟩
    · exact Or.inl h
    · exact Or.inr ⟨h1, Nat.le_of_lt h2⟩
  · exact Or.inr ⟨rfl, Nat.le_refl _⟩

/-- betterEv is below its second argument. -/
theorem betterEv_le_right (a b : Event) : evLE (betterEv a b) b := by
  unfold betterEv evLE
  split
  · exact Or.inr ⟨rfl, Nat.le_refl _⟩
  · rename_i hc
    push_neg at hc
    obtain ⟨h1, h2⟩ := hc
    rcases eq_or_lt_of_le h1 with heq | hlt
    · exact Or.inr ⟨heq, h2 heq.symm⟩
    · exact Or.inl hlt

/-- The heap order is transitive. -/
theorem evLE_trans {a b c : Event} (h1 : evLE a b) (h2 : evLE b c) : evLE a c := by
  rcases h1 with h1 | ⟨h1, h1'⟩ <;> rcases h2 with h2 | ⟨h2, h2'⟩
  · exact Or.inl (lt_trans h1 h2)
  · exact Or.inl (h2 ▸ h1)
  · exact Or.inl (h1 ▸ h2)
  · exact Or.inr ⟨h1.trans h2, h1'.trans h2'⟩

/-- The heap order bounds times. -/
theorem evLE_time {a b : Event} (h : evLE a b) : a.time ≤ b.time := by
  rcases h with h | ⟨h, _⟩
  · exact le_of_lt h
  · exact le_of_eq h

/-- The fold computing the minimum stays inside the list. -/
theorem foldl_betterEv_mem : ∀ (xs : List Event) (x : Event),
    xs.foldl betterEv x ∈ x :: xs := by
  intro xs
  induction xs with
  | nil => intro x; simp
  | cons y ys ih =>
      intro x
      rw [List.foldl_cons]
      rcases betterEv_eq_or x y with h | h <;> rw [h]
      · rcases List.mem_cons.mp (ih x) with h2 | h2
        · rw [h2]
          exact List.mem_cons_self x _
        · exact List.mem_cons_of_mem _ (List.mem_cons_of_mem _ h2)
      · exact List.mem_cons_of_mem _ (ih y)

/-- The fold computing the minimum is below the seed and every
element. -/
theorem foldl_betterEv_le : ∀ (xs : List Event) (x : Event),
    evLE (xs.foldl betterEv x) x ∧ ∀ e ∈ xs, evLE (xs.foldl betterEv x) e := by
  intro xs
  induction xs with
  | nil =>
      intro x
      refine ⟨Or.inr ⟨rfl, Nat.le_refl _⟩, ?_⟩
      intro e he
      cases he
  | cons y ys ih =>
      intro x
      rw [List.foldl_cons]
      obtain ⟨ih1, ih2⟩ := ih (betterEv x y)
      refine ⟨evLE_trans ih1 (betterEv_le_left x y), ?_⟩
      intro e he
      rcases List.mem_cons.mp he with h | h
      · rw [h]
        exact evLE_trans ih1 (betterEv_le_right x y)
      · exact ih2 e h

/-- heappop returns a member that is least in heap order, and the
remaining list is the erasure of that member. -/
theorem popMin_spec {l : List Event} {ev : Event} {rest : List Event}
    (h : popMin l = some (ev, rest)) :
    ev ∈ l ∧ rest = l.erase ev ∧ ∀ e ∈ l, evLE ev e := by
  cases l with
  | nil => cases h
  | cons x xs =>
      unfold popMin at h
      simp only [Option.some.injEq, Prod.mk.injEq] at h
      obtain ⟨hev, hrest⟩ := h
      subst hev
      subst hrest
      refine ⟨foldl_betterEv_mem xs x, rfl, ?_⟩
      intro e he
      rcases List.mem_cons.mp he with h | h
      · rw [h]
        exact (foldl_betterEv_le xs x).1
      · exact (foldl_betterEv_le xs x).2 e h

/-! ### Time accounting (claim C1) -/

/-- Sum of a list after adding dt at a valid index. -/
theorem sum_set_getD (dt : ℚ) : ∀ (l : List ℚ) (j : ℕ), j < l.length →
    (l.set j (l.getD j 0 + dt)).sum = l.sum + dt := by
  intro l
  induction l with
  | nil => intro j hj; simp at hj
  | cons x xs ih =>
      intro j hj
      cases j with
      | zero =>
          simp only [List.getD_cons_zero, List.set, List.sum_cons]
          ring
      | succ n =>
          have hn : n < xs.length := by simpa using hj
          simp only [List.getD_cons_succ, List.set, List.sum_cons, ih n hn]
          ring

/-- A successful Python index is in range. -/
theorem pyIdx_lt {len : ℕ} {i : ℤ} {j : ℕ} (h : pyIdx len i = some j) : j < len := by
  unfold pyIdx at h
  split at h
  · simp only [Option.some.injEq] at h
    subst h
    rename_i hc
    omega
  · split at h
    · simp only [Option.some.injEq] at h
      subst h
      rename_i hc1 hc2
      omega
    · cases h

/-- A successful tempo update adds dt to the node's total time. -/
theorem addTempo_sum {nd nd' : Node} {dt : ℚ} (h : nd.addTempo dt = .ok nd') :
    nd'.tempo_estado.sum = nd.tempo_estado.sum + dt := by
  unfold Node.addTempo at h
  split at h
  · cases h
  · rename_i j hidx
    simp only [Except.ok.injEq] at h
    subst h
    exact sum_set_getD dt _ j (pyIdx_lt hidx)

/-- Admission changes no field involved in time accounting. -/
theorem admit_snd_fields {nd nd2 : Node} {b : Bool} (hadm : Node.admit nd = (b, nd2)) :
    nd2.name = nd.name ∧ nd2.c = nd.c ∧ nd2.k = nd.k ∧
    nd2.serviceRange = nd.serviceRange ∧ nd2.arrivalRange = nd.arrivalRange ∧
    nd2.tempo_estado = nd.tempo_estado := by
  unfold Node.admit at hadm
  split at hadm <;> simp only [Prod.mk.injEq] at hadm <;> rw [← hadm.2] <;>
    exact ⟨rfl, rfl, rfl, rfl, rfl, rfl⟩

/-- Service completion changes no field involved in time accounting. -/
theorem finish_fields (nd : Node) :
    nd.finish_service_one.name = nd.name ∧ nd.finish_service_one.c = nd.c ∧
    nd.finish_service_one.k = nd.k ∧
    nd.finish_service_one.serviceRange = nd.serviceRange ∧
    nd.finish_service_one.arrivalRange = nd.arrivalRange ∧
    nd.finish_service_one.tempo_estado = nd.tempo_estado :=
  ⟨rfl, rfl, rfl, rfl, rfl, rfl⟩

/-- Ranges survive admission. -/
theorem admit_rangesGood {nd nd2 : Node} {b : Bool} (hadm : Node.admit nd = (b, nd2))
    (h : RangesGood nd) : RangesGood nd2 := by
  obtain ⟨-, -, -, hs, ha, -⟩ := admit_snd_fields hadm
  unfold RangesGood at h ⊢
  rw [hs, ha]
  exact h

/-- Ranges survive service completion. -/
theorem rangesGood_finish {nd : Node} (h : RangesGood nd) :
    RangesGood nd.finish_service_one := h

/-- Ranges survive the tempo update. -/
theorem rangesGood_addTempo {nd nd' : Node} {dt : ℚ} (h : nd.addTempo dt = .ok nd')
    (hg : RangesGood nd) : RangesGood nd' := by
  rw [addTempo_fields h]
  exact hg

/-- Any per-node property is preserved by setVal when the new value
satisfies it. -/
theorem pred_setVal {α : Type} (P : α → Prop) {d : List (String × α)} {key : String}
    {v : α} (hP : ∀ p ∈ d, P p.2) (hv : P v) : ∀ p ∈ setVal d key v, P p.2 :=
  fun q hq => (mem_setVal q hq).elim (fun h => h ▸ hv) (hP q)

/-- A successful draw from a good source yields a nonnegative deviate
and keeps the source good. -/
theorem u_ok_good {r : SimulationRNG} {uv : ℚ} {rng2 : SimulationRNG}
    (hg : goodRng r) (h : r.u = (.ok uv, rng2)) : 0 ≤ uv ∧ goodRng rng2 := by
  obtain ⟨hlist, hlcg⟩ := hg
  obtain ⟨src, used⟩ := r
  cases src with
  | list l =>
      cases l with
      | nil => simp [SimulationRNG.u] at h
      | cons x rest =>
          simp only [SimulationRNG.u, Prod.mk.injEq, Except.ok.injEq] at h
          obtain ⟨hx, hrng⟩ := h
          subst hx
          subst hrng
          refine ⟨hlist (x :: rest) rfl x (List.mem_cons_self _ _), ?_, ?_⟩
          · intro l0 hl0
            simp only [RNGSource.list.injEq] at hl0
            subst hl0
            exact fun y hy => hlist _ rfl y (List.mem_cons_of_mem _ hy)
          · intro g hgl
            simp at hgl
  | lcg g =>
      have hm : 0 < g.m := hlcg g rfl
      simp only [SimulationRNG.u, LinearCongruentialGenerator.next_random,
        Prod.mk.injEq, Except.ok.injEq] at h
      obtain ⟨hx, hrng⟩ := h
      subst hx
      subst hrng
      refine ⟨?_, ?_, ?_⟩
      · apply div_nonneg
        · exact_mod_cast Int.emod_nonneg _ (ne_of_gt hm)
        · exact_mod_cast le_of_lt hm
      · intro l0 h0
        simp at h0
      · intro g2 hg2
        simp only [RNGSource.lcg.injEq] at hg2
        subst hg2
        exact hm

/-- Scheduling an event no earlier than the last statistics update
preserves the time invariant. -/
theorem timeInv_scheduleEv {st : SimState} {t : ℚ} {ty : EType} {nm : String}
    (hP : TimeInv st) (ht : st.last_update_time ≤ t) :
    TimeInv (scheduleEv st t ty nm) := by
  unfold TimeInv at hP ⊢
  unfold scheduleEv
  obtain ⟨h1, h2, h3, h4, h5⟩ := hP
  refine ⟨h1, ?_, h3, h4, h5⟩
  intro e he
  rcases List.mem_cons.mp he with h | h
  · rw [h]
    exact ht
  · exact h2 e h

/-- A successful sampler draw from good ranges preserves the time
invariant and yields a nonnegative duration. -/
theorem timeInv_drawSample {st : SimState} {mn mx v : ℚ} {st' : SimState}
    (h : drawSample st mn mx = .ok (v, st')) (hP : TimeInv st)
    (h0 : 0 ≤ mn) (hmn : mn ≤ mx) : TimeInv st' ∧ 0 ≤ v := by
  obtain ⟨uv, rng2, hu, hv, hst⟩ := drawSample_ok_eq h
  obtain ⟨huv, hg2⟩ := u_ok_good hP.2.2.2.2 hu
  subst hst
  subst hv
  constructor
  · obtain ⟨h1, h2, h3, h4, h5⟩ := hP
    exact ⟨h1, h2, h3, h4, hg2⟩
  · have := mul_nonneg (sub_nonneg.mpr hmn) huv
    linarith

/-- The shared admission block preserves the time invariant. -/
theorem timeInv_admitAndMaybeSchedule {st : SimState} {key : String} {fila : Node}
    {st' : SimState} (h : admitAndMaybeSchedule st key fila = .ok st')
    (hP : TimeInv st) (hf : RangesGood fila)
    (hsum : fila.tempo_estado.sum = st.last_update_time) : TimeInv st' := by
  unfold admitAndMaybeSchedule at h
  split at h
  rename_i admitted fila2 hadm
  have hfields := admit_snd_fields hadm
  have hf2 : RangesGood fila2 := admit_rangesGood hadm hf
  have hsum2 : fila2.tempo_estado.sum = st.last_update_time := by
    rw [hfields.2.2.2.2.2]
    exact hsum
  have hP4 : TimeInv { st with nodes := setVal st.nodes key fila2 } := by
    obtain ⟨h1, h2, h3, h4, h5⟩ := hP
    exact ⟨h1, h2,
      pred_setVal (fun nd : Node => nd.tempo_estado.sum = st.last_update_time) h3 hsum2,
      pred_setVal RangesGood h4 hf2, h5⟩
  split at h
  · split at h
    · split at h
      · cases h
      · rename_i s st5 hd
        simp only [Except.ok.injEq] at h
        subst h
        have hdraw := timeInv_drawSample hd hP4 hf2.1 hf2.2.1
        apply timeInv_scheduleEv hdraw.1
        have ht5 : st5.time = st5.last_update_time := hdraw.1.1
        have hs0 : 0 ≤ s := hdraw.2
        linarith [ht5, hs0]
    · simp only [Except.ok.injEq] at h
      subst h
      exact hP4
  · simp only [Except.ok.injEq] at h
    subst h
    exact hP4

/-- Scheduling the next external arrival preserves the time
invariant. -/
theorem timeInv_scheduleNextExternal {st : SimState} {fila : Node} {st' : SimState}
    (h : scheduleNextExternal st fila = .ok st') (hP : TimeInv st)
    (hf : RangesGood fila) : TimeInv st' := by
  unfold scheduleNextExternal at h
  split at h
  · simp only [Except.ok.injEq] at h
    subst h
    exact hP
  · rename_i mn mx harr
    split at h
    · cases h
    · rename_i ia st2 hd
      simp only [Except.ok.injEq] at h
      subst h
      obtain ⟨hb0, hbmn⟩ := hf.2.2 mn mx harr
      have hdraw := timeInv_drawSample hd hP hb0 hbmn
      apply timeInv_scheduleEv hdraw.1
      have ht2 : st2.time = st2.last_update_time := hdraw.1.1
      linarith [hdraw.2]

/-- Rescheduling a busy server preserves the time invariant. -/
theorem timeInv_rescheduleIfBusy {st : SimState} {fila2 : Node} {st' : SimState}
    (h : rescheduleIfBusy st fila2 = .ok st') (hP : TimeInv st)
    (hf : RangesGood fila2) : TimeInv st' := by
  unfold rescheduleIfBusy at h
  split at h
  · split at h
    · cases h
    · rename_i s st2 hd
      simp only [Except.ok.injEq] at h
      subst h
      have hdraw := timeInv_drawSample hd hP hf.1 hf.2.1
      apply timeInv_scheduleEv hdraw.1
      have ht2 : st2.time = st2.last_update_time := hdraw.1.1
      linarith [hdraw.2]
  · simp only [Except.ok.injEq] at h
    subst h
    exact hP

/-- Routing a departed customer preserves the time invariant. -/
theorem timeInv_routeDeparted {st : SimState} {fila2 : Node} {st' : SimState}
    (h : routeDeparted st fila2 = .ok st') (hP : TimeInv st) : TimeInv st' := by
  unfold routeDeparted at h
  split at h
  · cases h
  · rename_i dest rng2 hpd
    have hg2 : goodRng rng2 := by
      unfold pick_destination at hpd
      split at hpd
      · simp only [Prod.mk.injEq] at hpd
        rw [← hpd.2]
        exact hP.2.2.2.2
      · simp only [Prod.mk.injEq] at hpd
        rw [← hpd.2]
        exact hP.2.2.2.2
      · split at hpd
        · cases hpd
        · rename_i uv rng2' hueq
          simp only [Prod.mk.injEq] at hpd
          rw [← hpd.2]
          exact (u_ok_good hP.2.2.2.2 hueq).2
    have hP4 : TimeInv { st with rng := rng2 } :=
      ⟨hP.1, hP.2.1, hP.2.2.1, hP.2.2.2.1, hg2⟩
    split at h
    · simp only [Except.ok.injEq] at h
      subst h
      exact hP4
    · split at h
      · simp only [Except.ok.injEq] at h
        subst h
        exact hP4
      · split at h
        · cases h
        · rename_i filaD hD
          have hmem := dictGet_mem hD
          exact timeInv_admitAndMaybeSchedule h hP4 (hP.2.2.2.1 _ hmem)
            (hP.2.2.1 _ hmem)

/-- Frame of scheduleNextExternal: nodes, clock and last update are
untouched. -/
theorem scheduleNextExternal_frame {st : SimState} {fila : Node} {st' : SimState}
    (h : scheduleNextExternal st fila = .ok st') :
    st'.last_update_time = st.last_update_time ∧ st'.nodes = st.nodes ∧
    st'.time = st.time := by
  unfold scheduleNextExternal at h
  split at h
  · simp only [Except.ok.injEq] at h
    subst h
    exact ⟨rfl, rfl, rfl⟩
  · split at h
    · cases h
    · rename_i ia st2 hd
      simp only [Except.ok.injEq] at h
      subst h
      obtain ⟨uv, rng2, _, _, hst2⟩ := drawSample_ok_eq hd
      subst hst2
      exact ⟨rfl, rfl, rfl⟩

/-- One loop iteration preserves the time invariant. -/
theorem timeInv_stepBody {st st' : SimState} (h : stepBody st = .ok st')
    (hP : TimeInv st) : TimeInv st' := by
  unfold stepBody at h
  split at h
  · simp only [Except.ok.injEq] at h
    subst h
    exact hP
  · rename_i ev rest hpop
    obtain ⟨hev_mem, hrest, hmin⟩ := popMin_spec hpop
    split at h
    · cases h
    · rename_i st1 hupd
      obtain ⟨he, hrg, htm, hlu, _, _, _, _, hnodes⟩ := update_time_stats_ok hupd
      have hle : st.last_update_time ≤ ev.time := hP.2.1 ev hev_mem
      split at h
      · cases h
      · rename_i fila hget
        have h_ev_min : ∀ e ∈ rest, ev.time ≤ e.time := by
          intro e he2
          rw [hrest] at he2
          exact evLE_time (hmin e (List.erase_subset _ _ he2))
        have hsum1 : ∀ p ∈ st1.nodes, p.2.tempo_estado.sum = ev.time := by
          rcases hnodes with ⟨hsame, hneg⟩ | ⟨hup, _⟩
          · have heq : ev.time = st.last_update_time := by
              have : ¬ 0 < ev.time - st.last_update_time := hneg
              have h2 : st.last_update_time ≤ ev.time := hle
              linarith [not_lt.mp this]
            intro p hp
            rw [hsame] at hp
            rw [heq]
            exact hP.2.2.1 p hp
          · intro q hq
            obtain ⟨p, hp, _, hadd⟩ := updateNodesTempo_mem hup q hq
            rw [addTempo_sum hadd, hP.2.2.1 p hp]
            ring
        have hranges1 : ∀ p ∈ st1.nodes, RangesGood p.2 := by
          rcases hnodes with ⟨hsame, _⟩ | ⟨hup, _⟩
          · intro p hp
            rw [hsame] at hp
            exact hP.2.2.2.1 p hp
          · intro q hq
            obtain ⟨p, hp, _, hadd⟩ := updateNodesTempo_mem hup q hq
            exact rangesGood_addTempo hadd (hP.2.2.2.1 p hp)
        have hP2 : TimeInv { st1 with time := ev.time } := by
          refine ⟨hlu.symm, ?_, ?_, hranges1, ?_⟩
          · intro e he2
            rw [hlu]
            rw [he] at he2
            exact h_ev_min e he2
          · intro p hp
            rw [hlu]
            exact hsum1 p hp
          · rw [hrg]
            exact hP.2.2.2.2
        have hmemf := dictGet_mem hget
        have hfR : RangesGood fila := hranges1 _ hmemf
        have hfS : fila.tempo_estado.sum = ev.time := hsum1 _ hmemf
        split at h
        · unfold handleArrival at h
          split at h
          · cases h
          · rename_i st3 hnext
            have hP3 : TimeInv st3 :=
              timeInv_scheduleNextExternal hnext hP2 hfR
            refine timeInv_admitAndMaybeSchedule h hP3 hfR ?_
            rw [(scheduleNextExternal_frame hnext).1]
            show fila.tempo_estado.sum = st1.last_update_time
            rw [hlu]
            exact hfS
        · unfold handleDeparture at h
          split at h
          · cases h
          · rename_i st3 hres
            have hP2' : TimeInv { st1 with time := ev.time, nodes := setVal st1.nodes ev.node_name fila.finish_service_one } := by
              obtain ⟨g1, g2, g3, g4, g5⟩ := hP2
              refine ⟨g1, g2, ?_, ?_, g5⟩
              · refine pred_setVal
                  (fun nd : Node => nd.tempo_estado.sum = st1.last_update_time) g3 ?_
                show fila.finish_service_one.tempo_estado.sum = st1.last_update_time
                rw [(finish_fields fila).2.2.2.2.2, hlu]
                exact hfS
              · exact pred_setVal RangesGood g4 (rangesGood_finish hfR)
            have hP3 : TimeInv st3 :=
              timeInv_rescheduleIfBusy hres hP2' (rangesGood_finish hfR)
            exact timeInv_routeDeparted h hP3
theorem pickScan_eq_find (uv : ℚ) (rules : List (String × ℚ)) :
    pickScan uv rules = (rules.find? (fun p => decide (uv < p.2))).map Prod.fst := by
  induction rules with
  | nil => rfl
  | cons hd tl ih =>
      obtain ⟨t, cp⟩ := hd
      by_cases h : uv < cp
      · simp [pickScan, List.find?, h]
      · simp [pickScan, List.find?, h, ih]

/-- Claim C4: pick_destination, for a source with a non-empty routing
table and a drawn deviate u, returns the first target of the ascending
cumulative table whose cumulative probability is strictly greater than
u (equality falls through to the next entry), and None when u is at
least every cumulative value; concretely, rules of 0.3 to A and 0.7 to
B build the table (A, 0.3), (B, 1.0), deviate 0.5 resolves to B, and a
deviate of 0.95 against a table with total mass 0.9 resolves to None. -/
theorem claim_C4 :
    (∀ (st : SimState) (source : String) (rules : List (String × ℚ)) (uv : ℚ)
        (rng' : SimulationRNG),
        dictGet st.routing_table source = some rules → rules ≠ [] →
        st.rng.u = (.ok uv, rng') →
        pick_destination st source =
          (.ok ((rules.find? (fun p => decide (uv < p.2))).map Prod.fst), rng')) ∧
    (∀ (uv : ℚ) (rules : List (String × ℚ)), (∀ p ∈ rules, p.2 ≤ uv) →
        pickScan uv rules = none) ∧
    buildRouting [RoutingRule.mk "source" "A" (3/10), RoutingRule.mk "source" "B" (7/10)] =
      [("source", [("A", 3/10), ("B", 1)])] ∧
    pick_destination stC4 "source" =
      (.ok (some "B"), { source := .list [], used := 1 }) ∧
    pickScan (3/10) [("A", 3/10), ("B", 1)] = some "B" ∧
    pickScan (19/20) [("A", 3/10), ("B", 3/5), ("C", 9/10)] = none := by
  refine ⟨?_, ?_, by decide, by decide, by decide, by decide⟩
  · intro st source rules uv rng' hget hne hu
    match rules, hne with
    | r0 :: rs, _ =>
        simp only [pick_destination, hget, hu, pickScan_eq_find]
  · intro uv rules hall
    induction rules with
    | nil => rfl
    | cons hd tl ih =>
        obtain ⟨t, cp⟩ := hd
        have h1 : ¬ uv < cp := not_lt.mpr (hall (t, cp) (by simp))
        simp only [pickScan, if_neg h1]
        exact ih fun p hp => hall p (List.mem_cons_of_mem _ hp)

/-- Witness for claim C4 at the concrete example state. -/
theorem claim_C4_witness :
    pick_destination stC4 "source" =
      (.ok (([("A", (3:ℚ)/10), ("B", (1:ℚ))].find?
          (fun p => decide ((1:ℚ)/2 < p.2))).map Prod.fst),
        { source := .list [], used := 1 }) ∧
    pickScan (19/20) [("A", 3/10), ("B", 3/5), ("C", 9/10)] = none :=
  ⟨claim_C4.1 stC4 "source" [("A", 3/10), ("B", 1)] (1/2)
      { source := .list [], used := 1 } (by decide) (by decide) (by decide),
    claim_C4.2.1 (19/20) [("A", 3/10), ("B", 3/5), ("C", 9/10)] (by decide)⟩

/-- Claim C10: for a source with no outgoing routing rules (missing or
empty entry), pick_destination returns None and the rng — usage
counter, internal state and remaining replay values — is returned
unchanged. -/
theorem claim_C10 (st : SimState) (source : String)
    (h : dictGet st.routing_table source = none ∨
         dictGet st.routing_table source = some []) :
    pick_destination st source = (.ok none, st.rng) := by
  rcases h with h | h <;> simp [pick_destination, h]

/-- Witness for claim C10: the cfgW5 state has an empty routing
table. -/
theorem claim_C10_witness :
    pick_destination stW5 "Q" = (.ok none, stW5.rng) :=
  claim_C10 stW5 "Q" (Or.inl (by decide))

/-- Claim C6: the code cannot build a node with the capacity key
omitted — int(float(inf)) raises OverflowError — so the documented
unbounded default is unreachable. -/
theorem claim_C6 :
    initSim cfgNoCap = .error .overflowError ∧
    (∀ (name : String) (p : QueueParams), p.capacity = none →
        buildNode name p = .error .overflowError) :=
  ⟨by decide, fun _ p h => by simp [buildNode, h]⟩

/-- Witness for claim C6 at the concrete capacity-less queue. -/
theorem claim_C6_witness :
    buildNode "Q" { servers := 1, capacity := none, minService := 1,
                    maxService := 2, minArrival := some 1,
                    maxArrival := some 2 } = .error .overflowError ∧
    initSim cfgNoCap = .error .overflowError :=
  ⟨claim_C6.2 "Q" _ rfl, claim_C6.1⟩

/-- Claim C7: the simulator is a pure function of its configuration —
equal configurations (hence equal seeds or replay sequences) give
identical event traces, identical final engine states and identical
results for any fuel. -/
theorem claim_C7 (cfg1 cfg2 : Config) (fuel : ℕ) (h : cfg1 = cfg2) :
    runTrace fuel cfg1 = runTrace fuel cfg2 ∧
    runSim fuel cfg1 = runSim fuel cfg2 ∧
    runResults fuel cfg1 = runResults fuel cfg2 := by
  subst h; exact ⟨rfl, rfl, rfl⟩

/-- Witness for claim C7 at a concrete configuration. -/
theorem claim_C7_witness :
    runTrace 10 cfgW1 = runTrace 10 cfgW1 ∧
    runSim 10 cfgW1 = runSim 10 cfgW1 ∧
    runResults 10 cfgW1 = runResults 10 cfgW1 :=
  claim_C7 cfgW1 cfgW1 10 rfl

/-- Claim C8: every call of the deviate source increments the usage
counter by exactly one on either variant; an exhausted replay list
yields the fatal exhaustion error; and a run that requests more
deviates than supplied aborts with that error. -/
theorem claim_C8 :
    (∀ r : SimulationRNG, (r.u).2.used = r.used + 1) ∧
    (∀ r : SimulationRNG, r.source = .list [] →
        r.u = (.error .exhausted, { source := .list [], used := r.used + 1 })) ∧
    runSim 3 cfgExhaust = some (.error .exhausted) ∧
    runResults 3 cfgExhaust = some (.error .exhausted) := by
  refine ⟨?_, ?_, by decide, by decide⟩
  · intro r
    obtain ⟨src, used⟩ := r
    cases src with
    | list l => cases l <;> rfl
    | lcg g => rfl
  · intro r h
    obtain ⟨src, used⟩ := r
    cases src with
    | list l =>
        simp only [RNGSource.list.injEq] at h
        subst h; rfl
    | lcg g => simp at h

/-- Witness for claim C8 at concrete sources. -/
theorem claim_C8_witness :
    (SimulationRNG.u { source := .list [], used := 5 }
      = (.error .exhausted, { source := .list [], used := 6 })) ∧
    (SimulationRNG.u { source := .lcg (lcgInit 1), used := 0 }).2.used = 1 :=
  ⟨claim_C8.2.1 { source := .list [], used := 5 } rfl,
    claim_C8.1 { source := .lcg (lcgInit 1), used := 0 }⟩

/-- Claim C9 counterexample: a configuration giving both a seed and a
replay sequence is accepted — construction succeeds, the replay list
is selected, and a runnable engine results, so no ConfigurationError
is raised. -/
theorem claim_C9_counterexample :
    (initSim cfgBoth).map (fun st => st.rng.source) = .ok (.list [1/2]) ∧
    (initSim cfgBoth).isOk = true := by
  exact ⟨by decide, by decide⟩

/-- Claim C9 amended: no construction-time validation exists.
Contradictory RNG input (both seed and replay sequence) is accepted,
the replay list taking precedence unless the batch seeds key is
present, in which case the seeded LCG is used; a negative capacity and
a probability above one are likewise accepted, each yielding a
runnable engine. -/
theorem claim_C9 :
    (initSim cfgBoth).map (fun st => st.rng.source) = .ok (.list [1/2]) ∧
    (initSim cfgBothSeeds).map (fun st => st.rng.source) = .ok (.lcg (lcgInit 7)) ∧
    (initSim cfgNegCap).isOk = true ∧
    (initSim cfgBadProb).isOk = true := by
  exact ⟨by decide, by decide, by decide, by decide⟩

/-- Claim C3 counterexample: with replay deviates [0,0,0,0,0,0] the
scenario does not complete — the service-time draw of the third
arrival is a seventh deviate, so the run aborts with the exhaustion
error instead of returning served = 3. -/
theorem claim_C3_counterexample :
    runResults 10 cfg3 = some (.error .exhausted) := by decide

/-- Claim C3 amended: the scenario produces arrivals at t = 1, 2, 3,
the first two served with departures at t = 1.5 and t = 2.5; while
processing the t = 3 arrival the six-value replay sequence is
exhausted on the service-time draw and the run aborts with the fatal
exhaustion error rather than completing. -/
theorem claim_C3 :
    runTrace 10 cfg3 =
      [{ time := 1, seq := 1, etype := .arrival, node_name := "Q" },
       { time := 3/2, seq := 3, etype := .departure, node_name := "Q" },
       { time := 2, seq := 2, etype := .arrival, node_name := "Q" },
       { time := 5/2, seq := 5, etype := .departure, node_name := "Q" },
       { time := 3, seq := 4, etype := .arrival, node_name := "Q" }] ∧
    runSim 10 cfg3 = some (.error .exhausted) := by
  exact ⟨by decide, by decide⟩

/-! ### Construction-time facts for claim C1 -/

/-- The initial time-in-state vector sums to zero. -/
theorem mkTempoEstado_sum (k : ℤ) : (mkTempoEstado k).sum = 0 := by
  unfold mkTempoEstado
  simp

/-- Members of a dict insertion are old members or the new pair. -/
theorem mem_dictInsert {α : Type} {d : List (String × α)} {key : String} {v : α} :
    ∀ q ∈ dictInsert d key v, q ∈ d ∨ q = (key, v) := by
  intro q hq
  unfold dictInsert at hq
  split at hq
  · rcases List.mem_map.mp hq with ⟨p, hp, hpq⟩
    by_cases hk : (p.1 == key) = true
    · rw [if_pos hk] at hpq
      right
      rw [← hpq]
      have hkey : p.1 = key := by simpa using hk
      rw [hkey]
    · rw [if_neg hk] at hpq
      left
      rw [← hpq]
      exact hp
  · rcases List.mem_append.mp hq with h | h
    · exact Or.inl h
    · simp only [List.mem_singleton] at h
      exact Or.inr h

/-- A successful node construction names its capacity and fields. -/
theorem buildNode_ok {name : String} {params : QueueParams} {nd : Node}
    (h : buildNode name params = .ok nd) :
    ∃ cap, params.capacity = some cap ∧
      nd = { name := name, c := params.servers, k := cap,
             serviceRange := (params.minService, params.maxService),
             arrivalRange := match params.minArrival, params.maxArrival with
                             | some a, some b => some (a, b)
                             | _, _ => none,
             n := 0, tempo_estado := mkTempoEstado cap,
             atendidos := 0, perdas := 0, admitted := 0 } := by
  unfold buildNode at h
  split at h
  · cases h
  · rename_i cap hcap
    simp only [Except.ok.injEq] at h
    exact ⟨cap, hcap, h.symm⟩

/-- Members of the built node dict come from the accumulator or from a
queue declaration. -/
theorem buildNodes_mem :
    ∀ (qs : List (String × QueueParams)) (acc ns : List (String × Node)),
      buildNodes acc qs = .ok ns → ∀ q ∈ ns,
        q ∈ acc ∨ ∃ name params, (name, params) ∈ qs ∧
          buildNode name params = .ok q.2 ∧ q.1 = name := by
  intro qs
  induction qs with
  | nil =>
      intro acc ns h q hq
      unfold buildNodes at h
      simp only [Except.ok.injEq] at h
      subst h
      exact Or.inl hq
  | cons hd tl ih =>
      intro acc ns h q hq
      obtain ⟨name, params⟩ := hd
      unfold buildNodes at h
      split at h
      · cases h
      · rename_i nd hbn
        rcases ih _ ns h q hq with hacc | ⟨n2, p2, hm, hb2, hk⟩
        · rcases mem_dictInsert q hacc with hin | heqq
          · exact Or.inl hin
          · right
            refine ⟨name, params, List.mem_cons_self _ _, ?_, ?_⟩
            · rw [heqq]
              exact hbn
            · rw [heqq]
        · exact Or.inr ⟨n2, p2, List.mem_cons_of_mem _ hm, hb2, hk⟩

/-- Construction establishes the time invariant, with the statistics
clock at zero. -/
theorem timeInv_initSim {cfg : Config} {st : SimState} (h : initSim cfg = .ok st)
    (hg : GoodConfig cfg) : TimeInv st ∧ st.last_update_time = 0 := by
  unfold initSim at h
  split at h
  · cases h
  · rename_i ns hb
    simp only [Except.ok.injEq] at h
    subst h
    have hnodes : ∀ q ∈ ns, q.2.tempo_estado.sum = 0 ∧ RangesGood q.2 := by
      intro q hq
      rcases buildNodes_mem cfg.queues [] ns hb q hq with hq0 | ⟨name, params, hmemq, hbuild, -⟩
      · cases hq0
      · obtain ⟨cap, -, hnd⟩ := buildNode_ok hbuild
        obtain ⟨hs0, hs1, harr⟩ := hg.1 (name, params) hmemq
        constructor
        · rw [hnd]
          exact mkTempoEstado_sum cap
        · rw [hnd]
          refine ⟨hs0, hs1, ?_⟩
          intro a b hab
          cases hma : params.minArrival with
          | none => simp [hma] at hab
          | some a0 =>
              cases hmb : params.maxArrival with
              | none => simp [hma, hmb] at hab
              | some b0 =>
                  simp only [hma, hmb, Option.some.injEq, Prod.mk.injEq] at hab
                  obtain ⟨ha, hb2⟩ := hab
                  subst ha
                  subst hb2
                  exact harr a0 b0 hma hmb
    refine ⟨⟨rfl, ?_, ?_, ?_, ?_⟩, rfl⟩
    · intro e he
      cases he
    · intro p hp
      exact (hnodes p hp).1
    · intro p hp
      exact (hnodes p hp).2
    · unfold SimulationRNG.init
      split
      · rename_i l heq _
        refine ⟨?_, ?_⟩
        · intro l0 h0
          simp only [RNGSource.list.injEq] at h0
          subst h0
          exact hg.2 l heq
        · intro g hgl
          simp at hgl
      · refine ⟨?_, ?_⟩
        · intro l0 h0
          simp at h0
        · intro g hgl
          simp only [RNGSource.lcg.injEq] at hgl
          subst hgl
          norm_num [lcgInit]
      · refine ⟨?_, ?_⟩
        · intro l0 h0
          simp at h0
        · intro g hgl
          simp only [RNGSource.lcg.injEq] at hgl
          subst hgl
          norm_num [lcgInit]

/-- Initial arrival scheduling preserves the time invariant while the
statistics clock is at or below zero. -/
theorem timeInv_initArrivals :
    ∀ (l : List (String × Node)) (st st' : SimState),
      initArrivals l st = .ok st' → TimeInv st → (∀ p ∈ l, RangesGood p.2) →
      st.last_update_time ≤ 0 → TimeInv st' := by
  intro l
  induction l with
  | nil =>
      intro st st' h hP _ _
      unfold initArrivals at h
      simp only [Except.ok.injEq] at h
      subst h
      exact hP
  | cons hd tl ih =>
      intro st st' h hP hR hl
      obtain ⟨name, nd⟩ := hd
      unfold initArrivals at h
      split at h
      · exact ih st st' h hP (fun p hp => hR p (List.mem_cons_of_mem _ hp)) hl
      · rename_i mn mx harr
        split at h
        · cases h
        · rename_i t st2 hd2
          have hRnd : RangesGood nd := hR (name, nd) (List.mem_cons_self _ _)
          obtain ⟨hb0, hbmn⟩ := hRnd.2.2 mn mx harr
          have hdraw := timeInv_drawSample hd2 hP hb0 hbmn
          obtain ⟨uv, rng2, -, -, hst2⟩ := drawSample_ok_eq hd2
          subst hst2
          refine ih _ st' h ?_ (fun p hp => hR p (List.mem_cons_of_mem _ hp)) ?_
          · exact timeInv_scheduleEv hdraw.1 (le_trans hl hdraw.2)
          · exact hl

/-- At the end of a completed run, every node's accumulated
time-in-state sums to the final clock. -/
theorem runSim_sum_eq_time {cfg : Config} {fuel : ℕ} {st : SimState}
    (hg : GoodConfig cfg) (hs : runSim fuel cfg = some (.ok st)) :
    ∀ p ∈ st.nodes, p.2.tempo_estado.sum = st.time := by
  unfold runSim at hs
  split at hs
  · cases hs
  · rename_i st0 hinit
    split at hs
    · cases hs
    · rename_i st1 harr
      split at hs
      · cases hs
      · cases hs
      · rename_i st2 hloop
        split at hs
        · cases hs
        · rename_i st3 hfinal
          simp only [Option.some.injEq, Except.ok.injEq] at hs
          subst hs
          obtain ⟨h0, h0z⟩ := timeInv_initSim hinit hg
          have h1 : TimeInv st1 :=
            timeInv_initArrivals st0.nodes st0 st1 harr h0 h0.2.2.2.1 (le_of_eq h0z)
          have h2 : TimeInv st2 :=
            runLoop_ok_inv (fun _ _ hp hs2 => timeInv_stepBody hs2 hp) fuel st1 st2 h1 hloop
          obtain ⟨-, -, htm, hlu, -, -, -, -, hnodes⟩ := update_time_stats_ok hfinal
          have hteq : st2.time = st2.last_update_time := h2.1
          intro p hp
          rcases hnodes with ⟨hsame, -⟩ | ⟨-, hpos⟩
          · rw [hsame] at hp
            rw [htm, hteq]
            exact h2.2.2.1 p hp
          · exfalso
            rw [hteq] at hpos
            simp at hpos

/-- Claim C1: for every completed run of a well-formed configuration
(nonnegative ordered sampler ranges, nonnegative replay deviates), the
sum of every node's time-in-state vector equals the final global
simulated time, exactly in rational arithmetic. -/
theorem claim_C1 (cfg : Config) (fuel : ℕ) (res : Results)
    (hgood : GoodConfig cfg) (hrun : runResults fuel cfg = some (.ok res)) :
    ∀ p ∈ res.filas, p.2.tempo_estado.sum = res.tempo_global := by
  unfold runResults at hrun
  cases hs : runSim fuel cfg with
  | none => rw [hs] at hrun; cases hrun
  | some r =>
      rw [hs] at hrun
      cases r with
      | error e => simp only [Option.map_some', Except.map] at hrun; cases hrun
      | ok st3 =>
          simp only [Option.map_some', Except.map, Option.some.injEq,
            Except.ok.injEq] at hrun
          subst hrun
          have hsum := runSim_sum_eq_time hgood hs
          intro p hp
          unfold getResults at hp
          rcases List.mem_map.mp hp with ⟨q, hq, hqp⟩
          have := hsum q hq
          rw [← hqp]
          simpa using this

/-- Witness for claim C1 at the completed run of cfgW1. -/
theorem claim_C1_witness :
    runResults 10 cfgW1 = some (.ok resW1) ∧
    filaW1.tempo_estado.sum = resW1.tempo_global := by
  have hg : GoodConfig cfgW1 := by
    constructor
    · intro p hp
      simp only [cfgW1, List.mem_singleton] at hp
      subst hp
      refine ⟨by norm_num, by norm_num, ?_⟩
      intro a b ha hb
      simp only [Option.some.injEq] at ha hb
      subst ha
      subst hb
      norm_num
    · intro l hl
      simp only [cfgW1, Option.some.injEq] at hl
      subst hl
      intro x hx
      have hx0 : x = 0 := by simpa using hx
      rw [hx0]
  exact ⟨by decide, claim_C1 cfgW1 10 resW1 hg (by decide) ("Q", filaW1) (by decide)⟩

/-! ### Capacity and occupancy (claim C2) -/

/-- Members of setVal with the key identified. -/
theorem mem_setVal_strong {α : Type} {d : List (String × α)} {key : String} {v : α} :
    ∀ q ∈ setVal d key v, (q.1 = key ∧ q.2 = v) ∨ (q ∈ d ∧ q.1 ≠ key) := by
  intro q hq
  unfold setVal at hq
  rcases List.mem_map.mp hq with ⟨p, hp, hpq⟩
  by_cases hk : (p.1 == key) = true
  · rw [if_pos hk] at hpq
    left
    rw [← hpq]
    exact ⟨by simpa using hk, rfl⟩
  · rw [if_neg hk] at hpq
    right
    rw [← hpq]
    exact ⟨hp, by simpa using hk⟩

/-- The two outcomes of Node.admit, with their guards. -/
theorem admit_spec (nd : Node) :
    (nd.k ≤ nd.n ∧ Node.admit nd = (false, { nd with perdas := nd.perdas + 1 })) ∨
    (nd.n < nd.k ∧ Node.admit nd = (true, { nd with n := nd.n + 1, admitted := nd.admitted + 1 })) := by
  unfold Node.admit
  by_cases h : nd.n ≥ nd.k
  · exact Or.inl ⟨h, if_pos h⟩
  · exact Or.inr ⟨lt_of_not_ge h, if_neg h⟩

/-- Scheduling changes the pending departure count of a node by one
exactly when the scheduled event is a departure of that node. -/
theorem depCount_scheduleEv (st : SimState) (t : ℚ) (ty : EType) (nm2 nm : String) :
    depCount (scheduleEv st t ty nm2).events nm =
      depCount st.events nm + (if ty = .departure ∧ nm2 = nm then 1 else 0) := by
  show depCount ({ time := t, seq := st.seq_counter + 1, etype := ty, node_name := nm2 } :: st.events) nm = _
  unfold depCount
  rw [List.countP_cons]
  congr 1
  cases ty with
  | arrival => simp
  | departure =>
      by_cases h2 : nm2 = nm
      · simp [h2]
      · simp [h2]

/-- Popping an event decrements the pending departure count of its
node exactly when it is a departure. -/
theorem depCount_pop {l : List Event} {ev : Event} {rest : List Event}
    (h : popMin l = some (ev, rest)) (nm : String) :
    depCount l nm = depCount rest nm +
      (if ev.etype = .departure ∧ ev.node_name = nm then 1 else 0) := by
  obtain ⟨hmem, hrest, -⟩ := popMin_spec h
  subst hrest
  have hperm := List.perm_cons_erase hmem
  unfold depCount
  rw [List.Perm.countP_eq _ hperm, List.countP_cons]
  congr 1
  cases hety : ev.etype with
  | arrival => simp [hety]
  | departure =>
      by_cases h2 : ev.node_name = nm
      · simp [hety, h2]
      · simp [hety, h2]

/-- The shared admission block preserves the capacity invariant. -/
theorem capInv_admitAndMaybeSchedule {st : SimState} {key : String} {fila : Node}
    {st' : SimState} (h : admitAndMaybeSchedule st key fila = .ok st')
    (hmem : (key, fila) ∈ st.nodes) (hP : CapInv st) : CapInv st' := by
  have hfacts := hP (key, fila) hmem
  have hname : fila.name = key := hfacts.1
  have hk0 : (0:ℤ) ≤ fila.k := hfacts.2.1
  have hn0 : (0:ℤ) ≤ fila.n := hfacts.2.2.1
  have hnk : fila.n ≤ fila.k := hfacts.2.2.2.1
  have hdep : (depCount st.events key : ℤ) = max 0 (min fila.n fila.c) :=
    hfacts.2.2.2.2
  unfold admitAndMaybeSchedule at h
  split at h
  rename_i admitted fila2 hadm
  rcases admit_spec fila with ⟨hge, he⟩ | ⟨hlt, he⟩ <;> rw [hadm] at he <;>
    simp only [Prod.mk.injEq] at he <;> obtain ⟨ha, hf2⟩ := he
  · subst ha
    subst hf2
    rw [if_neg Bool.false_ne_true] at h
    simp only [Except.ok.injEq] at h
    subst h
    intro q hq
    rcases mem_setVal_strong q hq with ⟨hq1, hq2⟩ | ⟨hqin, -⟩
    · obtain ⟨q1, q2⟩ := q
      simp only at hq1 hq2
      subst hq2
      rw [hq1]
      exact ⟨hname, hk0, hn0, hnk, hdep⟩
    · exact hP q hqin
  · subst ha
    subst hf2
    rw [if_pos rfl] at h
    split at h
    · rename_i hcle0
      have hcle : fila.n + 1 ≤ fila.c := hcle0
      split at h
      · cases h
      · rename_i s st5 hdraw
        simp only [Except.ok.injEq] at h
        subst h
        obtain ⟨uv, rng2, -, -, hst5⟩ := drawSample_ok_eq hdraw
        subst hst5
        intro q hq
        have hq' : q ∈ setVal st.nodes key { fila with n := fila.n + 1, admitted := fila.admitted + 1 } := hq
        rcases mem_setVal_strong q hq' with ⟨hq1, hq2⟩ | ⟨hqin, hqne⟩
        · obtain ⟨q1, q2⟩ := q
          simp only at hq1 hq2
          subst hq2
          rw [hq1]
          refine ⟨hname, hk0, by show (0:ℤ) ≤ fila.n + 1; omega,
            by show fila.n + 1 ≤ fila.k; omega, ?_⟩
          rw [depCount_scheduleEv, if_pos ⟨rfl, hname⟩]
          show ((depCount st.events key + 1 : ℕ) : ℤ) =
            max 0 (min (fila.n + 1) fila.c)
          push_cast
          omega
        · obtain ⟨q1, q2⟩ := q
          have hPq := hP (q1, q2) hqin
          refine ⟨hPq.1, hPq.2.1, hPq.2.2.1, hPq.2.2.2.1, ?_⟩
          rw [depCount_scheduleEv, if_neg ?_]
          · simpa using hPq.2.2.2.2
          · rintro ⟨-, hcon⟩
            exact hqne (hcon.symm.trans hname)
    · rename_i hcgt0
      have hcgt : ¬ fila.n + 1 ≤ fila.c := hcgt0
      simp only [Except.ok.injEq] at h
      subst h
      intro q hq
      rcases mem_setVal_strong q hq with ⟨hq1, hq2⟩ | ⟨hqin, -⟩
      · obtain ⟨q1, q2⟩ := q
        simp only at hq1 hq2
        subst hq2
        rw [hq1]
        refine ⟨hname, hk0, by show (0:ℤ) ≤ fila.n + 1; omega,
          by show fila.n + 1 ≤ fila.k; omega, ?_⟩
        show ((depCount st.events key : ℕ) : ℤ) = max 0 (min (fila.n + 1) fila.c)
        omega
      · exact hP q hqin

/-- Scheduling the next external arrival preserves the capacity
invariant (arrival events are not counted). -/
theorem capInv_scheduleNextExternal {st : SimState} {fila : Node} {st' : SimState}
    (h : scheduleNextExternal st fila = .ok st') (hP : CapInv st) : CapInv st' := by
  unfold scheduleNextExternal at h
  split at h
  · simp only [Except.ok.injEq] at h
    subst h
    exact hP
  · split at h
    · cases h
    · rename_i ia st2 hd
      simp only [Except.ok.injEq] at h
      subst h
      obtain ⟨uv, rng2, -, -, hst2⟩ := drawSample_ok_eq hd
      subst hst2
      intro q hq
      have hPq := hP q hq
      refine ⟨hPq.1, hPq.2.1, hPq.2.2.1, hPq.2.2.2.1, ?_⟩
      rw [depCount_scheduleEv, if_neg ?_]
      · simpa using hPq.2.2.2.2
      · rintro ⟨hc, -⟩
        cases hc

/-- Routing of a departed customer preserves the capacity invariant. -/
theorem capInv_routeDeparted {st : SimState} {fila2 : Node} {st' : SimState}
    (h : routeDeparted st fila2 = .ok st') (hP : CapInv st) : CapInv st' := by
  unfold routeDeparted at h
  split at h
  · cases h
  · rename_i dest rng2 hpd
    split at h
    · simp only [Except.ok.injEq] at h
      subst h
      exact hP
    · split at h
      · simp only [Except.ok.injEq] at h
        subst h
        exact hP
      · split at h
        · cases h
        · rename_i filaD hD
          exact capInv_admitAndMaybeSchedule h (dictGet_mem hD) hP

/-- One loop iteration preserves the capacity invariant. -/
theorem capInv_stepBody {st st' : SimState} (h : stepBody st = .ok st')
    (hP : CapInv st) : CapInv st' := by
  unfold stepBody at h
  split at h
  · simp only [Except.ok.injEq] at h
    subst h
    exact hP
  · rename_i ev rest hpop
    split at h
    · cases h
    · rename_i st1 hupd
      obtain ⟨he, -, -, -, -, -, -, -, hnodes⟩ := update_time_stats_ok hupd
      have hP1 : ∀ q ∈ st1.nodes, q.2.name = q.1 ∧ 0 ≤ q.2.k ∧ 0 ≤ q.2.n ∧
          q.2.n ≤ q.2.k ∧ (depCount st.events q.1 : ℤ) = max 0 (min q.2.n q.2.c) := by
        rcases hnodes with ⟨hsame, -⟩ | ⟨hup, -⟩
        · intro q hq
          rw [hsame] at hq
          exact hP q hq
        · intro q hq
          obtain ⟨p, hp, hqk, hadd⟩ := updateNodesTempo_mem hup q hq
          have hPp := hP p hp
          rw [hqk, addTempo_fields hadd]
          exact ⟨hPp.1, hPp.2.1, hPp.2.2.1, hPp.2.2.2.1, hPp.2.2.2.2⟩
      split at h
      · cases h
      · rename_i fila hget
        have hmemf : (ev.node_name, fila) ∈ st1.nodes := dictGet_mem hget
        obtain ⟨hname0, hk00, hn00, hnk0, hdep0⟩ := hP1 _ hmemf
        have hname : fila.name = ev.node_name := hname0
        have hk0 : (0:ℤ) ≤ fila.k := hk00
        have hn0 : (0:ℤ) ≤ fila.n := hn00
        have hnk : fila.n ≤ fila.k := hnk0
        have hdep : (depCount st.events ev.node_name : ℤ) =
            max 0 (min fila.n fila.c) := hdep0
        split at h
        · rename_i hety
          have hxq : ∀ nm, depCount st.events nm = depCount rest nm := by
            intro nm
            have hx := depCount_pop hpop nm
            rw [hety] at hx
            simpa using hx
          have hP2 : CapInv { st1 with time := ev.time } := by
            intro q hq
            have hq1 := hP1 q hq
            refine ⟨hq1.1, hq1.2.1, hq1.2.2.1, hq1.2.2.2.1, ?_⟩
            have hev2 : ({ st1 with time := ev.time } : SimState).events = rest := he
            rw [hev2, ← hxq q.1]
            exact hq1.2.2.2.2
          unfold handleArrival at h
          split at h
          · cases h
          · rename_i st3 hnext
            have hP3 : CapInv st3 := capInv_scheduleNextExternal hnext hP2
            have hm3 : (ev.node_name, fila) ∈ st3.nodes := by
              rw [(scheduleNextExternal_frame hnext).2.1]
              exact hmemf
            exact capInv_admitAndMaybeSchedule h hm3 hP3
        · rename_i hety
          have hxkey : depCount st.events ev.node_name =
              depCount rest ev.node_name + 1 := by
            have hx := depCount_pop hpop ev.node_name
            rw [hety] at hx
            simpa using hx
          have hxoff : ∀ nm, nm ≠ ev.node_name →
              depCount st.events nm = depCount rest nm := by
            intro nm hne
            have hx := depCount_pop hpop nm
            rw [hety, if_neg ?_] at hx
            · simpa using hx
            · rintro ⟨-, hc⟩
              exact hne hc.symm
          unfold handleDeparture at h
          split at h
          · cases h
          · rename_i st3 hres
            have hnc1 : 1 ≤ fila.n ∧ 1 ≤ fila.c := by
              have hx : (depCount st.events ev.node_name : ℤ) =
                  (depCount rest ev.node_name : ℤ) + 1 := by exact_mod_cast hxkey
              omega
            unfold rescheduleIfBusy at hres
            split at hres
            · rename_i hbusy
              split at hres
              · cases hres
              · rename_i s st2b hdraw
                simp only [Except.ok.injEq] at hres
                subst hres
                obtain ⟨uv, rng2, -, -, hst2b⟩ := drawSample_ok_eq hdraw
                subst hst2b
                refine capInv_routeDeparted h ?_
                · intro q hq
                  have hq' : q ∈ setVal st1.nodes ev.node_name
                      fila.finish_service_one := hq
                  rcases mem_setVal_strong q hq' with ⟨hq1, hq2⟩ | ⟨hqin, hqne⟩
                  · obtain ⟨q1, q2⟩ := q
                    simp only at hq1 hq2
                    subst hq1
                    subst hq2
                    have hbusy2 : fila.n - 1 ≥ fila.c := hbusy
                    refine ⟨hname, hk0, by show (0:ℤ) ≤ fila.n - 1; omega,
                      by show fila.n - 1 ≤ fila.k; omega, ?_⟩
                    rw [depCount_scheduleEv, if_pos ⟨rfl, hname⟩]
                    have hev2 : st1.events = rest := he
                    show ((depCount st1.events ev.node_name + 1 : ℕ) : ℤ) =
                      max 0 (min (fila.n - 1) fila.c)
                    rw [hev2]
                    have hx : (depCount st.events ev.node_name : ℤ) =
                        (depCount rest ev.node_name : ℤ) + 1 := by exact_mod_cast hxkey
                    push_cast
                    omega
                  · obtain ⟨q1, q2⟩ := q
                    have hPq := hP1 (q1, q2) hqin
                    refine ⟨hPq.1, hPq.2.1, hPq.2.2.1, hPq.2.2.2.1, ?_⟩
                    rw [depCount_scheduleEv, if_neg ?_]
                    · have hev2 : st1.events = rest := he
                      show ((depCount st1.events q1 + 0 : ℕ) : ℤ) =
                        max 0 (min q2.n q2.c)
                      rw [hev2, ← hxoff q1 hqne]
                      simpa using hPq.2.2.2.2
                    · rintro ⟨-, hcon⟩
                      exact hqne (hcon.symm.trans hname)
            · rename_i hnb
              simp only [Except.ok.injEq] at hres
              subst hres
              refine capInv_routeDeparted h ?_
              · intro q hq
                have hq' : q ∈ setVal st1.nodes ev.node_name
                    fila.finish_service_one := hq
                rcases mem_setVal_strong q hq' with ⟨hq1, hq2⟩ | ⟨hqin, hqne⟩
                · obtain ⟨q1, q2⟩ := q
                  simp only at hq1 hq2
                  subst hq1
                  subst hq2
                  have hnb2 : ¬ fila.n - 1 ≥ fila.c := hnb
                  refine ⟨hname, hk0, by show (0:ℤ) ≤ fila.n - 1; omega,
                    by show fila.n - 1 ≤ fila.k; omega, ?_⟩
                  have hev2 : st1.events = rest := he
                  show ((depCount st1.events ev.node_name : ℕ) : ℤ) =
                    max 0 (min (fila.n - 1) fila.c)
                  rw [hev2]
                  have hx : (depCount st.events ev.node_name : ℤ) =
                      (depCount rest ev.node_name : ℤ) + 1 := by exact_mod_cast hxkey
                  omega
                · obtain ⟨q1, q2⟩ := q
                  have hPq := hP1 (q1, q2) hqin
                  refine ⟨hPq.1, hPq.2.1, hPq.2.2.1, hPq.2.2.2.1, ?_⟩
                  have hev2 : st1.events = rest := he
                  show ((depCount st1.events q1 : ℕ) : ℤ) = max 0 (min q2.n q2.c)
                  rw [hev2, ← hxoff q1 hqne]
                  simpa using hPq.2.2.2.2

/-- Construction establishes the capacity invariant. -/
theorem capInv_initSim {cfg : Config} {st : SimState} (h : initSim cfg = .ok st)
    (hcaps : CapsGood cfg) : CapInv st := by
  unfold initSim at h
  split at h
  · cases h
  · rename_i ns hb
    simp only [Except.ok.injEq] at h
    subst h
    intro q hq
    rcases buildNodes_mem cfg.queues [] ns hb q hq with h0 |
      ⟨name, params, hmemq, hbuild, hkey⟩
    · cases h0
    · obtain ⟨cap, hcap, hnd⟩ := buildNode_ok hbuild
      have hc0 : 0 ≤ cap := hcaps (name, params) hmemq cap hcap
      obtain ⟨q1, q2⟩ := q
      simp only at hkey hnd
      subst hkey
      subst hnd
      refine ⟨rfl, hc0, le_refl 0, hc0, ?_⟩
      show ((depCount [] q1 : ℕ) : ℤ) = max 0 (min 0 params.servers)
      have hdc : depCount [] q1 = 0 := rfl
      rw [hdc]
      omega

/-- Initial arrival scheduling preserves the capacity invariant. -/
theorem capInv_initArrivals :
    ∀ (l : List (String × Node)) (st st' : SimState),
      initArrivals l st = .ok st' → CapInv st → CapInv st' := by
  intro l
  induction l with
  | nil =>
      intro st st' h hP
      unfold initArrivals at h
      simp only [Except.ok.injEq] at h
      subst h
      exact hP
  | cons hd tl ih =>
      intro st st' h hP
      obtain ⟨name, nd⟩ := hd
      unfold initArrivals at h
      split at h
      · exact ih st st' h hP
      · split at h
        · cases h
        · rename_i t st2 hd2
          obtain ⟨uv, rng2, -, -, hst2⟩ := drawSample_ok_eq hd2
          subst hst2
          refine ih _ st' h ?_
          intro q hq
          have hPq := hP q hq
          refine ⟨hPq.1, hPq.2.1, hPq.2.2.1, hPq.2.2.2.1, ?_⟩
          rw [depCount_scheduleEv, if_neg ?_]
          · simpa using hPq.2.2.2.2
          · rintro ⟨hc, -⟩
            cases hc

/-- Claim C2: in every reachable state of the event loop of a
configuration with nonnegative capacities, every node satisfies
0 ≤ n ≤ k; and an admission attempt at n = k returns blocked,
increments only the loss count, and leaves occupancy, served count and
time-in-state unchanged. -/
theorem claim_C2 (cfg : Config) (st : SimState) (hcaps : CapsGood cfg)
    (hreach : Reachable cfg st) :
    (∀ p ∈ st.nodes, 0 ≤ p.2.n ∧ p.2.n ≤ p.2.k) ∧
    (∀ nd : Node, nd.n = nd.k →
      Node.admit nd = (false, { nd with perdas := nd.perdas + 1 })) := by
  constructor
  · have hinv : CapInv st := by
      induction hreach with
      | init st0 st1 hinit harr =>
          exact capInv_initArrivals _ _ _ harr (capInv_initSim hinit hcaps)
      | step st0 st1 hr hcond hstep ih => exact capInv_stepBody hstep ih
    intro p hp
    exact ⟨(hinv p hp).2.2.1, (hinv p hp).2.2.2.1⟩
  · intro nd hnk
    unfold Node.admit
    rw [if_pos (ge_of_eq hnk)]

/-- Witness for claim C2 at the reachable initial state of cfgW5,
whose node has n = k = 0. -/
theorem claim_C2_witness :
    (0 ≤ nodeW5.n ∧ nodeW5.n ≤ nodeW5.k) ∧
    Node.admit nodeW5 = (false, { nodeW5 with perdas := nodeW5.perdas + 1 }) := by
  have hcaps : CapsGood cfgW5 := by
    intro p hp cp hcp
    simp only [cfgW5, List.mem_singleton] at hp
    subst hp
    simp only [Option.some.injEq] at hcp
    omega
  have hreach : Reachable cfgW5 stW5 :=
    Reachable.init stW5 stW5 (by decide) (by decide)
  have hmain := claim_C2 cfgW5 stW5 hcaps hreach
  exact ⟨hmain.1 ("Q", nodeW5) (by decide), hmain.2 nodeW5 (by decide)⟩

end RedeFilas
